import Mathlib

/-!
Verification of the snowcrash URI template parser (`src/UriTemplateParser.cc`)

A shallow embedding of the URI template parser and a verification of the
properties the specification states about it.

* `std::string` values (URI templates, paths, expressions) are `List Char`.
* `size_t` values are natural numbers below `2 ^ 64`; `std::string::npos` is
  `2 ^ 64 - 1` and the only `size_t` operation that can wrap
  (`expressionStartPos++`) is taken modulo `2 ^ 64`.
* The `while` loop of `GetUriTemplateExpressions` runs on fuel and returns
  `none` when the fuel is exhausted; `parse` returns `none` when one of the
  loops it calls does.
* The loops of the two bracket checks index the path with an `unsigned int`,
  taken modulo `2 ^ 32`, against the 64-bit `length()`; they run on fuel and
  return `none` when the loop never leaves. The `int` counters are kept as
  their 32-bit patterns (an increment wraps modulo `2 ^ 32`).
* `UriTemplateParser.h`, `RegexMatch.h` and the warning types are not part of
  the translated file; what `UriTemplateParser.cc` uses of them is gathered in
  the parameter records `Header` and in `RegexCaptureFn`.
-/

set_option autoImplicit false

namespace UriTemplateParser

/-! ## Data model -/

/-- The type `URITemplate` is `std::string`. -/
abbrev URITemplate := List Char

/-- The type `Expression` is `std::string`. -/
abbrev Expression := List Char

/-- The type `Expressions` is `std::vector<Expression>`. -/
abbrev Expressions := List Expression

/-- The type `mdp::CharactersRangeSet`: a sequence of (location, length) ranges. -/
abbrev CharactersRangeSet := List (Nat × Nat)

/-- Modelled from the spec: the warning category used by this file (the
enumeration itself is declared outside the translated source). -/
inductive WarningCode where
  | URIWarning
  deriving DecidableEq, Repr

/-- Modelled from the spec: the nine warning subcodes of the URI template
parser (declared in the header, outside the translated source). -/
inductive WarningSubCode where
  | NoUriTemplateWarningSubCode
  | MismatchedCurlyBracketsWarningUriTemplateWarningSubCode
  | NestedCurlyBracketsWarningUriTemplateWarningSubCode
  | SquareBracketWarningUriTemplateWarningSubCode
  | ContainsSpacesWarningUriTemplateWarningSubCode
  | ContainsHyphensWarningUriTemplateWarningSubCode
  | ContainsAssignmentWarningUriTemplateWarningSubCode
  | InvalidCharactersWarningUriTemplateWarningSubCode
  | UnsupportedExpressionWarningUriTemplateWarningSubCode
  deriving DecidableEq, Repr

/-- Modelled from the spec: a warning is a message, a category, a subcode and
an optional source range. The three-argument constructor call of the source
(no source range passed) is `location := none`. -/
structure Warning where
  message : String
  code : WarningCode
  subCode : WarningSubCode
  location : Option CharactersRangeSet
  deriving DecidableEq, Repr

/-- The report: the ordered sequence of warnings. -/
structure Report where
  warnings : List Warning
  deriving DecidableEq, Repr

/-- The type `ParsedURITemplate`: the result record mutated by `parse`. -/
structure ParsedURITemplate where
  scheme : List Char
  host : List Char
  path : List Char
  report : Report
  deriving DecidableEq, Repr

/-- The operator forms: one per expression class constructed in
`ClassifyExpression`. -/
inductive Form where
  | Variable
  | QueryString
  | Fragment
  | ReservedExpansion
  | LabelExpansion
  | PathSegmentExpansion
  | PathStyleParameterExpansion
  | FormStyleQueryContinuation
  | Undefined
  deriving DecidableEq, Repr

/-- The type `ClassifiedExpression`: the object returned by `ClassifyExpression`. `form`
records which expression class the returned object was constructed as; the
other two are the data members that `parse` reads. -/
structure ClassifiedExpression where
  form : Form
  innerExpression : Expression
  unsupportedWarningText : String
  deriving DecidableEq, Repr

/-- What `UriTemplateParser.cc` uses of `UriTemplateParser.h`, whose text is not
part of the translated source: the `IsExpressionType` predicate of each
expression class, the data members set by each class constructor, and the
member functions of `ClassifiedExpression` called by `parse`. All of them are
parameters. -/
structure Header where
  IsExpressionType : Form → Expression → Bool
  innerExpressionOf : Form → Expression → Expression
  unsupportedWarningTextOf : Form → Expression → String
  IsSupportedExpressionType : ClassifiedExpression → Bool
  ContainsSpaces : ClassifiedExpression → Bool
  ContainsHyphens : ClassifiedExpression → Bool
  ContainsAssignment : ClassifiedExpression → Bool
  IsInvalidExpressionName : ClassifiedExpression → Bool

/-- The call `RegexCapture(uri, URI_REGEX, groups, 5)`: the external decomposition.
`none` is a failed match, `some groups` a match with its five capture groups. -/
abbrev RegexCaptureFn := URITemplate → Option (Fin 5 → List Char)

/-! ## Bracket validator -/

/-- The loop of `HasMismatchedCurlyBrackets`, lines 18-21, on fuel: the state is
the index `i`, `openCount` and `closeCount`. The index is an `unsigned int`:
`i++` is taken modulo `2 ^ 32`, while `length()` is not truncated. The `int`
counters are kept as their 32-bit patterns, which `!=` compares. `none` is a
run that has not left the loop when the fuel is used up. -/
def mismatchedLoop (uriTemplate : URITemplate) : Nat → Nat → Nat → Nat → Option Bool
  | 0, _, _, _ => none
  | fuel + 1, i, openCount, closeCount =>
    if h : i < uriTemplate.length then
      let openCount := if uriTemplate[i] = '{' then (openCount + 1) % 2 ^ 32 else openCount
      let closeCount := if uriTemplate[i] = '}' then (closeCount + 1) % 2 ^ 32 else closeCount
      mismatchedLoop uriTemplate fuel ((i + 1) % 2 ^ 32) openCount closeCount
    else some (openCount != closeCount)

/-- The function `HasMismatchedCurlyBrackets`, lines 14-23. The loop has no
`break`: it leaves after `length()` iterations when the index can reach
`length()`, and never otherwise, so the fuel `length() + 1` decides it
(`mismatchedLoop_fuel_adequate`). The value is `none` when the function does
not return. -/
def HasMismatchedCurlyBrackets (uriTemplate : URITemplate) : Option Bool :=
  mismatchedLoop uriTemplate (uriTemplate.length + 1) 0 0 0

/-- The first `if` of the loop body of `HasNestedCurlyBrackets` (lines 30-36):
`none` is the `break` with `result = true`, `some b` the new `lastBracket`. -/
def nestedOpen (c lastBracket : Char) : Option Char :=
  if c = '{' then
    if lastBracket = '{' then none else some '{'
  else some lastBracket

/-- The second `if` of the loop body of `HasNestedCurlyBrackets` (lines 37-43). -/
def nestedClose (c lastBracket : Char) : Option Char :=
  if c = '}' then
    if lastBracket = '}' then none else some '}'
  else some lastBracket

/-- The loop of `HasNestedCurlyBrackets`, lines 29-44, on fuel: the state is the
index `i` (an `unsigned int`, `i++` taken modulo `2 ^ 32`) and `lastBracket`.
The two `if` statements of the body run one after the other, a `break` ends
the loop with `result = true`, and leaving the loop at `i >= length()` ends it
with `result = false`. `none` is a run that has not left the loop when the
fuel is used up. -/
def nestedLoop (uriTemplate : URITemplate) : Nat → Nat → Char → Option Bool
  | 0, _, _ => none
  | fuel + 1, i, lastBracket =>
    if h : i < uriTemplate.length then
      match (nestedOpen uriTemplate[i] lastBracket).bind (nestedClose uriTemplate[i]) with
      | none => some true
      | some lastBracket => nestedLoop uriTemplate fuel ((i + 1) % 2 ^ 32) lastBracket
    else some false

/-- The function `HasNestedCurlyBrackets`, lines 25-46. A run that leaves the
loop does so within `length()` iterations when the index can reach `length()`,
and otherwise within two rounds of the `2 ^ 32` index values (after one round
`lastBracket` no longer changes), so the fuel `length() + 2 ^ 32 + 1` decides
it (`nestedLoop_fuel_adequate`). The value is `none` when the function does
not return. -/
def HasNestedCurlyBrackets (uriTemplate : URITemplate) : Option Bool :=
  nestedLoop uriTemplate (uriTemplate.length + 2 ^ 32 + 1) 0 ' '

/-! ## Square-bracket detector and expression extractor -/

/-- The constant `std::string::npos`. -/
def npos : Nat := 2 ^ 64 - 1

/-- Scan for `c` in the remaining characters, `i` being the index of the first
of them; `npos` when there is none. -/
def findAux (c : Char) : List Char → Nat → Nat
  | [], _ => npos
  | x :: rest, i => if x = c then i else findAux c rest (i + 1)

/-- The call `s.find(c, pos)`: the index of the first `c` at position `pos` or later,
`npos` when there is none (in particular when `pos` is past the end). -/
def find (s : List Char) (c : Char) (pos : Nat) : Nat :=
  findAux c (s.drop pos) pos

/-- The call `s.substr(pos, n)` for `pos ≤ s.size()`: at most `n` characters from
position `pos`. At its only call site `pos` is one past a found index, so the
`out_of_range` case of `substr` does not arise. -/
def substr (s : List Char) (pos n : Nat) : List Char :=
  (s.drop pos).take n

/-- The function `PathContainsSquareBrackets`, lines 48-50. -/
def PathContainsSquareBrackets (uriTemplate : URITemplate) : Bool :=
  find uriTemplate '[' 0 != npos || find uriTemplate ']' 0 != npos

/-- The `while` loop of `GetUriTemplateExpressions`, lines 57-64, on fuel: the
state is `expressionStartPos`, `expressionEndPos` and `expressions`. -/
def extractLoop (uriTemplate : URITemplate) :
    Nat → Nat → Nat → Expressions → Option Expressions
  | 0, _, _, _ => none
  | fuel + 1, expressionStartPos, expressionEndPos, expressions =>
    if expressionStartPos ≠ npos ∧ expressionEndPos ≠ npos
        ∧ expressionStartPos < uriTemplate.length then
      let startPos := find uriTemplate '{' expressionStartPos
      let endPos := find uriTemplate '}' startPos
      let expressions :=
        if startPos ≠ npos ∧ endPos > startPos then
          expressions ++ [substr uriTemplate (startPos + 1) ((endPos - startPos) - 1)]
        else expressions
      extractLoop uriTemplate fuel ((startPos + 1) % 2 ^ 64) endPos expressions
    else some expressions

/-- The function `GetUriTemplateExpressions`, lines 52-66. -/
def GetUriTemplateExpressions (uriTemplate : URITemplate) : Option Expressions :=
  extractLoop uriTemplate (uriTemplate.length + 1) 0 0 []

/-! ## Expression classifier -/

/-- The object built by the constructor of the expression class `form` from
`expression`. -/
def construct (H : Header) (form : Form) (expression : Expression) : ClassifiedExpression :=
  { form := form
    innerExpression := H.innerExpressionOf form expression
    unsupportedWarningText := H.unsupportedWarningTextOf form expression }

/-- The function `ClassifyExpression`, lines 68-114. When the path-style parameter predicate
holds, the source returns `pathSegmentExpansionExpression` (line 103). -/
def ClassifyExpression (H : Header) (expression : Expression) : ClassifiedExpression :=
  let variableExpression := construct H .Variable expression
  if H.IsExpressionType .Variable expression then variableExpression
  else
  let queryStringExpression := construct H .QueryString expression
  if H.IsExpressionType .QueryString expression then queryStringExpression
  else
  let fragmentExpression := construct H .Fragment expression
  if H.IsExpressionType .Fragment expression then fragmentExpression
  else
  let reservedExpansionExpression := construct H .ReservedExpansion expression
  if H.IsExpressionType .ReservedExpansion expression then reservedExpansionExpression
  else
  let labelExpansionExpression := construct H .LabelExpansion expression
  if H.IsExpressionType .LabelExpansion expression then labelExpansionExpression
  else
  let pathSegmentExpansionExpression := construct H .PathSegmentExpansion expression
  if H.IsExpressionType .PathSegmentExpansion expression then pathSegmentExpansionExpression
  else
  if H.IsExpressionType .PathStyleParameterExpansion expression then
    pathSegmentExpansionExpression
  else
  let formStyleQueryContinuationExpression := construct H .FormStyleQueryContinuation expression
  if H.IsExpressionType .FormStyleQueryContinuation expression then
    formStyleQueryContinuationExpression
  else
  let undefinedExpression := construct H .Undefined expression
  undefinedExpression

/-! ## Template parser -/

/-- The statement `result.report.warnings.push_back(w)`. -/
def pushWarning (result : ParsedURITemplate) (w : Warning) : ParsedURITemplate :=
  { result with report := { warnings := result.report.warnings ++ [w] } }

/-- One of the three illegal-character checks of lines 154-173: when `fires`,
the warning is pushed and `hasIllegalCharacters` is set. The state is the
result record and `hasIllegalCharacters`. -/
def illegalCheck (fires : Bool) (w : Warning) (st : ParsedURITemplate × Bool) :
    ParsedURITemplate × Bool :=
  if fires then (pushWarning st.1 w, true) else st

/-- The message built through the `std::stringstream` of lines 155-156,
162-163, 169-170 and 177-178: the opening text, the inner expression and the
closing text. -/
def message (classifiedExpression : ClassifiedExpression) (closing : String) : String :=
  "URI template \x27" ++ String.mk classifiedExpression.innerExpression ++ closing

/-- The body of the `while` loop of `parse`, lines 149-185, for one
expression. -/
def processExpression (H : Header) (sourceBlock : CharactersRangeSet)
    (result : ParsedURITemplate) (expression : Expression) : ParsedURITemplate :=
  let classifiedExpression := ClassifyExpression H expression
  if H.IsSupportedExpressionType classifiedExpression then
    let st : ParsedURITemplate × Bool := (result, false)
    let st := illegalCheck (H.ContainsSpaces classifiedExpression)
      ⟨message classifiedExpression "\x27 contains spaces", .URIWarning,
        .ContainsSpacesWarningUriTemplateWarningSubCode, some sourceBlock⟩ st
    let st := illegalCheck (H.ContainsHyphens classifiedExpression)
      ⟨message classifiedExpression "\x27 contains hyphens", .URIWarning,
        .ContainsHyphensWarningUriTemplateWarningSubCode, some sourceBlock⟩ st
    let st := illegalCheck (H.ContainsAssignment classifiedExpression)
      ⟨message classifiedExpression "\x27 contains assignment", .URIWarning,
        .ContainsAssignmentWarningUriTemplateWarningSubCode, some sourceBlock⟩ st
    if !st.2 then
      if H.IsInvalidExpressionName classifiedExpression then
        pushWarning st.1
          ⟨message classifiedExpression "\x27 contains invalid characters", .URIWarning,
            .InvalidCharactersWarningUriTemplateWarningSubCode, some sourceBlock⟩
      else st.1
    else st.1
  else
    pushWarning result
      ⟨classifiedExpression.unsupportedWarningText, .URIWarning,
        .UnsupportedExpressionWarningUriTemplateWarningSubCode, some sourceBlock⟩

/-- The `while` loop of `parse`, lines 145-187: the iterator walks the
extracted expressions from `begin()` to `end()`. -/
def processExpressions (H : Header) (sourceBlock : CharactersRangeSet) :
    ParsedURITemplate → Expressions → ParsedURITemplate
  | result, [] => result
  | result, currentExpression :: rest =>
    processExpressions H sourceBlock (processExpression H sourceBlock result currentExpression) rest

/-- The function `URITemplateParser::parse`, lines 116-193. The value is the result record
after the call; `none` when one of the loops it calls does not return. -/
def parse (RegexCapture : RegexCaptureFn) (H : Header) (uri : URITemplate)
    (sourceBlock : CharactersRangeSet) (result : ParsedURITemplate) :
    Option ParsedURITemplate :=
  if uri.isEmpty then some result
  else
    match RegexCapture uri with
    | some groups =>
      let result := { result with scheme := groups 1 }
      let result := { result with host := groups 3 }
      let result := { result with path := groups 4 }
      match HasMismatchedCurlyBrackets result.path with
      | none => none
      | some true =>
        some (pushWarning result
          ⟨"the URI template contains mismatched expression brackets", .URIWarning,
            .MismatchedCurlyBracketsWarningUriTemplateWarningSubCode, some sourceBlock⟩)
      | some false =>
        match HasNestedCurlyBrackets result.path with
        | none => none
        | some true =>
          some (pushWarning result
            ⟨"the URI template contains nested expression brackets", .URIWarning,
              .NestedCurlyBracketsWarningUriTemplateWarningSubCode, some sourceBlock⟩)
        | some false =>
          let result :=
            if PathContainsSquareBrackets result.path then
              pushWarning result
                ⟨"the URI template contains square brackets", .URIWarning,
                  .SquareBracketWarningUriTemplateWarningSubCode, some sourceBlock⟩
            else result
          match GetUriTemplateExpressions result.path with
          | some expressions => some (processExpressions H sourceBlock result expressions)
          | none => none
    | none =>
      some (pushWarning result
        ⟨"failed to parse URI Template", .URIWarning, .NoUriTemplateWarningSubCode, none⟩)

/-! ## Specification-side notions for the bracket validator -/

/-- The nesting check read off the characters of the path one after the other,
without an index: what the loop of `HasNestedCurlyBrackets` computes when its
index reaches the end of the path. -/
def nestedScan : List Char → Char → Bool
  | [], _ => false
  | c :: rest, lastBracket =>
    match (nestedOpen c lastBracket).bind (nestedClose c) with
    | none => true
    | some lastBracket => nestedScan rest lastBracket

/-- The sequence of curly-brace characters of a path, all other characters
dropped. -/
def curlySeq (p : List Char) : List Char :=
  p.filter (fun c => c == '{' || c == '}')

/-- Some position `j` holds the brace `b` and every curly brace before it is a
`b` as well. -/
def ReachesSame (p : List Char) (b : Char) : Prop :=
  ∃ j : Nat, p[j]? = some b ∧
    ∀ (k : Nat) (c : Char), k < j → p[k]? = some c → (c = '{' ∨ c = '}') → c = b

/-- Two positions `i < j` hold the same kind of curly brace with no brace of
the opposite kind between them. -/
def SameKindPair (p : List Char) : Prop :=
  ∃ (b : Char) (i j : Nat), (b = '{' ∨ b = '}') ∧ i < j ∧ p[i]? = some b ∧ p[j]? = some b ∧
    ∀ (k : Nat) (c : Char), i < k → k < j → p[k]? = some c → (c = '{' ∨ c = '}') → c = b

/-- Two neighbouring entries of a list are equal. -/
def AdjacentEqual (l : List Char) : Prop :=
  ∃ i, ∃ h : i + 1 < l.length, l[i] = l[i + 1]

/-- What the extraction loop computes, read off the characters left to scan:
at each `{` the text up to the next `}` when there is one, and otherwise the
whole rest of the path, after which the loop stops. -/
def scanSpans : List Char → List (List Char)
  | [] => []
  | c :: rest =>
    if c = '{' then
      if '}' ∈ rest then rest.takeWhile (fun x => x != '}') :: scanSpans rest
      else [rest]
    else scanSpans rest

/-- The positions of the `{` characters of a path, in increasing order. -/
def openPositions (p : List Char) : List Nat :=
  (List.range p.length).filter (fun i => p[i]? == some '{')

/-- The text strictly between position `i` and the first `}` after it. -/
def textToClose (p : List Char) (i : Nat) : List Char :=
  (p.drop (i + 1)).takeWhile (fun x => x != '}')

/-- Every `{` of the path has some `}` at a later position. -/
def EveryOpenIsClosed (p : List Char) : Prop :=
  ∀ i : Nat, i < p.length → p[i]? = some '{' →
    ∃ j : Nat, j < p.length ∧ i < j ∧ p[j]? = some '}'

instance (p : List Char) : Decidable (EveryOpenIsClosed p) := by
  unfold EveryOpenIsClosed
  infer_instance

/-- The number of `{` characters that are followed by a `}` with no curly brace
in between. -/
def closedSpanCount : List Char → Nat
  | [] => 0
  | c :: rest =>
    (if c = '{' ∧ (rest.dropWhile (fun x => !(x == '{' || x == '}'))).head? = some '}'
      then 1 else 0) + closedSpanCount rest

/-- Modelled from the spec: the operator prefix of each operator form (§3 of
the specification); the plain variable form and the undefined form have none. -/
def operatorPrefix : Form → Option Char
  | .Variable => none
  | .QueryString => some '?'
  | .Fragment => some '#'
  | .ReservedExpansion => some '+'
  | .LabelExpansion => some '.'
  | .PathSegmentExpansion => some '/'
  | .PathStyleParameterExpansion => some ';'
  | .FormStyleQueryContinuation => some '&'
  | .Undefined => none

/-- Modelled from the spec: whether a character is allowed in a variable name
(letters, digits, underscore), or is a separator or modifier (`,`, `:`, `*`) or
the percent sign of a percent-encoded triplet. -/
def allowedNameChar (c : Char) : Bool :=
  c.isAlphanum || c == '_' || c == ',' || c == ':' || c == '*' || c == '%'

/-- Modelled from the spec: the operator prefix characters (glossary of the
specification). -/
def operatorChars : List Char := ['?', '#', '+', '.', '/', ';', '&']

/-- Modelled from the spec: the variable-name portion of an expression, its
operator prefix excluded. -/
def namePortion (e : Expression) : Expression :=
  match e with
  | [] => []
  | c :: rest => if c ∈ operatorChars then rest else c :: rest

/-- Modelled from the spec: an instance of the header interface following §3
and §4.4 of the specification (forms recognised by their operator prefix, the
plain variable form by the absence of one, lexical scans of the variable-name
portion), on which the parser is run on concrete inputs. -/
def sampleHeader : Header where
  IsExpressionType form e :=
    match form with
    | .Variable =>
      match e with
      | [] => true
      | c :: _ => !(operatorChars.contains c)
    | .Undefined => false
    | form => e.head? == operatorPrefix form
  innerExpressionOf _ e := e
  unsupportedWarningTextOf form _ :=
    match form with
    | .Undefined => "unsupported expression"
    | _ => ""
  IsSupportedExpressionType c := c.form != .Undefined
  ContainsSpaces c := (namePortion c.innerExpression).contains ' '
  ContainsHyphens c := (namePortion c.innerExpression).contains '-'
  ContainsAssignment c := (namePortion c.innerExpression).contains '='
  IsInvalidExpressionName c := !(namePortion c.innerExpression).all allowedNameChar

/-- A successful decomposition into scheme, host and path (capture groups 1, 3
and 4 of the five groups). -/
def captureGroups (scheme host path : List Char) : Fin 5 → List Char :=
  fun i =>
    match i with
    | 0 => scheme ++ "://".toList ++ host ++ path
    | 1 => scheme
    | 2 => "://".toList
    | 3 => host
    | 4 => path

/-- A fresh result record. -/
def emptyResult : ParsedURITemplate :=
  { scheme := [], host := [], path := [], report := { warnings := [] } }

/-- The warning block of one classified expression, as the specification words
it: the unsupported-expression warning alone when the expression is not
supported; otherwise the spaces, hyphens and assignment warnings for the checks
that fire, in that order, and the invalid-characters warning only when none of
the three fired and the name is invalid. -/
def expressionWarnings (H : Header) (sourceBlock : CharactersRangeSet)
    (c : ClassifiedExpression) : List Warning :=
  if H.IsSupportedExpressionType c = false then
    [{ message := c.unsupportedWarningText, code := .URIWarning,
       subCode := .UnsupportedExpressionWarningUriTemplateWarningSubCode,
       location := some sourceBlock }]
  else
    (if H.ContainsSpaces c then
      [{ message := "URI template \x27" ++ String.mk c.innerExpression ++ "\x27 contains spaces",
         code := .URIWarning, subCode := .ContainsSpacesWarningUriTemplateWarningSubCode,
         location := some sourceBlock }] else [])
    ++ (if H.ContainsHyphens c then
      [{ message := "URI template \x27" ++ String.mk c.innerExpression ++ "\x27 contains hyphens",
         code := .URIWarning, subCode := .ContainsHyphensWarningUriTemplateWarningSubCode,
         location := some sourceBlock }] else [])
    ++ (if H.ContainsAssignment c then
      [{ message :=
           "URI template \x27" ++ String.mk c.innerExpression ++ "\x27 contains assignment",
         code := .URIWarning, subCode := .ContainsAssignmentWarningUriTemplateWarningSubCode,
         location := some sourceBlock }] else [])
    ++ (if H.ContainsSpaces c = false ∧ H.ContainsHyphens c = false
          ∧ H.ContainsAssignment c = false ∧ H.IsInvalidExpressionName c = true then
      [{ message :=
           "URI template \x27" ++ String.mk c.innerExpression
             ++ "\x27 contains invalid characters",
         code := .URIWarning, subCode := .InvalidCharactersWarningUriTemplateWarningSubCode,
         location := some sourceBlock }] else [])

/-- The subcodes of the three illegal-character warnings. -/
def illegalCharacterSubCodes : List WarningSubCode :=
  [.ContainsSpacesWarningUriTemplateWarningSubCode,
   .ContainsHyphensWarningUriTemplateWarningSubCode,
   .ContainsAssignmentWarningUriTemplateWarningSubCode]

/-- The result record after a successful decomposition: scheme, host and path
are capture groups 1, 3 and 4, and the report holds the given warnings. -/
def decomposed (groups : Fin 5 → List Char) (warnings : List Warning) : ParsedURITemplate :=
  { scheme := groups 1, host := groups 3, path := groups 4, report := { warnings := warnings } }

/-- The square-bracket warning of line 140. -/
def squareBracketWarning (sourceBlock : CharactersRangeSet) : Warning :=
  { message := "the URI template contains square brackets", code := .URIWarning,
    subCode := .SquareBracketWarningUriTemplateWarningSubCode, location := some sourceBlock }

/-- The positions of the `}` characters of a path, in increasing order. -/
def closePositions (p : List Char) : List Nat :=
  (List.range p.length).filter (fun i => p[i]? == some '}')

/-- The text strictly between positions `i` and `j`. -/
def textBetween (p : List Char) (i j : Nat) : List Char :=
  (p.drop (i + 1)).take (j - (i + 1))

/-- Position `j` holds the first curly brace after position `i`, and that
brace is a `}`. -/
def ClosedBy (p : List Char) (i j : Nat) : Prop :=
  i < j ∧ p[j]? = some '}' ∧
    ∀ k : Nat, i < k → k < j → p[k]? ≠ some '{' ∧ p[k]? ≠ some '}'

/-- The braces of the characters left to read alternate and end closed:
`inside` tells whether a `{` is waiting for its `}`. -/
def alternates : Bool → List Char → Bool
  | inside, [] => !inside
  | false, c :: rest =>
    if c = '{' then alternates true rest
    else if c = '}' then false
    else alternates false rest
  | true, c :: rest =>
    if c = '{' then false
    else if c = '}' then alternates false rest
    else alternates true rest

/-- One pass of the body of the loop of `HasNestedCurlyBrackets` over the given
characters: `none` when a `break` occurs, otherwise the final `lastBracket`. -/
def roundScan : List Char → Char → Option Char
  | [], lastBracket => some lastBracket
  | c :: rest, lastBracket =>
    match (nestedOpen c lastBracket).bind (nestedClose c) with
    | none => none
    | some lastBracket => roundScan rest lastBracket

/-- The last curly brace of the given characters, or `lastBracket` when there
is none. -/
def lastBrace : List Char → Char → Char
  | [], lastBracket => lastBracket
  | c :: rest, lastBracket =>
    lastBrace rest (if c = '{' ∨ c = '}' then c else lastBracket)

/-! ## Bracket validator: proofs -/

/-- On a path of `2 ^ 32` or more characters the loop of
`HasMismatchedCurlyBrackets` never leaves: whatever the fuel, there is no
value. -/
theorem mismatchedLoop_of_long (s : List Char) (hlong : 2 ^ 32 ≤ s.length) :
    ∀ fuel i o c : Nat, i < 2 ^ 32 → mismatchedLoop s fuel i o c = none := by
  intro fuel
  induction fuel with
  | zero => intro i o c _; rfl
  | succ fuel ih =>
    intro i o c hi
    have hlt : i < s.length := by omega
    rw [mismatchedLoop, dif_pos hlt]
    exact ih _ _ _ (Nat.mod_lt _ (by norm_num))

/-- On a path of fewer than `2 ^ 32` characters the loop of
`HasMismatchedCurlyBrackets`, started at index `i` with enough fuel, adds the
braces from `i` on to its counters. -/
theorem mismatchedLoop_eq (s : List Char) (hlen : s.length < 2 ^ 32) :
    ∀ fuel i o c : Nat, i ≤ s.length → o < 2 ^ 32 → c < 2 ^ 32 → s.length - i + 1 ≤ fuel →
      mismatchedLoop s fuel i o c
        = some ((o + (s.drop i).count '{') % 2 ^ 32 != (c + (s.drop i).count '}') % 2 ^ 32) := by
  intro fuel
  induction fuel with
  | zero => intro i o c _ _ _ hf; omega
  | succ fuel ih =>
    intro i o c hi ho hc hf
    by_cases hlt : i < s.length
    · have hmod : (i + 1) % 2 ^ 32 = i + 1 := Nat.mod_eq_of_lt (by omega)
      rw [mismatchedLoop, dif_pos hlt, hmod, List.drop_eq_getElem_cons hlt]
      simp only [List.count_cons]
      rw [ih (i + 1) _ _ (by omega)
        (by split <;> [exact Nat.mod_lt _ (by norm_num); exact ho])
        (by split <;> [exact Nat.mod_lt _ (by norm_num); exact hc]) (by omega)]
      by_cases h1 : s[i] = '{' <;> by_cases h2 : s[i] = '}' <;>
        simp [h1, h2, Nat.add_assoc, Nat.add_comm 1]
    · have hnil : s.drop i = [] := List.drop_eq_nil_of_le (by omega)
      rw [mismatchedLoop, dif_neg hlt, hnil]
      simp only [List.count_nil, Nat.add_zero]
      rw [Nat.mod_eq_of_lt ho, Nat.mod_eq_of_lt hc]

theorem hasMismatchedCurlyBrackets_of_short (s : URITemplate) (hlen : s.length < 2 ^ 32) :
    HasMismatchedCurlyBrackets s = some (s.count '{' != s.count '}') := by
  unfold HasMismatchedCurlyBrackets
  rw [mismatchedLoop_eq s hlen _ 0 0 0 (Nat.zero_le _) (by norm_num) (by norm_num) (by omega)]
  have h1 : s.count '{' < 2 ^ 32 := lt_of_le_of_lt (List.count_le_length _ _) hlen
  have h2 : s.count '}' < 2 ^ 32 := lt_of_le_of_lt (List.count_le_length _ _) hlen
  simp only [List.drop_zero, Nat.zero_add]
  rw [Nat.mod_eq_of_lt h1, Nat.mod_eq_of_lt h2]

theorem hasMismatchedCurlyBrackets_of_long (s : URITemplate) (hlong : 2 ^ 32 ≤ s.length) :
    HasMismatchedCurlyBrackets s = none :=
  mismatchedLoop_of_long s hlong _ 0 0 0 (by norm_num)

/-- When `HasMismatchedCurlyBrackets` returns, the path has fewer than `2 ^ 32`
characters and the value tells whether the two brace counts differ. -/
theorem of_hasMismatchedCurlyBrackets_eq_some (s : URITemplate) (b : Bool)
    (h : HasMismatchedCurlyBrackets s = some b) :
    s.length < 2 ^ 32 ∧ b = (s.count '{' != s.count '}') := by
  have hlen : s.length < 2 ^ 32 := by
    by_contra hlong
    rw [hasMismatchedCurlyBrackets_of_long s (by omega)] at h
    exact Option.noConfusion h
  rw [hasMismatchedCurlyBrackets_of_short s hlen] at h
  exact ⟨hlen, (Option.some.inj h).symm⟩

theorem npos_eq : npos = 18446744073709551615 := by decide

theorem length_lt_npos_of_hasMismatchedCurlyBrackets (s : URITemplate) (b : Bool)
    (h : HasMismatchedCurlyBrackets s = some b) : s.length < npos := by
  have := (of_hasMismatchedCurlyBrackets_eq_some s b h).1
  rw [npos_eq]
  omega

/-- On a path of fewer than `2 ^ 32` characters the loop of
`HasNestedCurlyBrackets`, started at index `i` with enough fuel, is the scan
of the characters from `i` on. -/
theorem nestedLoop_eq_scan (s : List Char) (hlen : s.length < 2 ^ 32) :
    ∀ (fuel i : Nat) (lastBracket : Char), i ≤ s.length → s.length - i + 1 ≤ fuel →
      nestedLoop s fuel i lastBracket = some (nestedScan (s.drop i) lastBracket) := by
  intro fuel
  induction fuel with
  | zero => intro i lb _ hf; omega
  | succ fuel ih =>
    intro i lb hi hf
    by_cases hlt : i < s.length
    · have hmod : (i + 1) % 2 ^ 32 = i + 1 := Nat.mod_eq_of_lt (by omega)
      rw [nestedLoop, dif_pos hlt, hmod, List.drop_eq_getElem_cons hlt, nestedScan]
      cases hstep : (nestedOpen s[i] lb).bind (nestedClose s[i]) with
      | none => rfl
      | some lb' => exact ih (i + 1) lb' (by omega) (by omega)
    · have hil : i = s.length := by omega
      rw [nestedLoop, dif_neg hlt]
      simp [hil, nestedScan]

theorem hasNestedCurlyBrackets_of_short (s : URITemplate) (hlen : s.length < 2 ^ 32) :
    HasNestedCurlyBrackets s = some (nestedScan s ' ') := by
  unfold HasNestedCurlyBrackets
  rw [nestedLoop_eq_scan s hlen _ 0 ' ' (Nat.zero_le _) (by omega)]
  simp

/-- On `{` followed by at least `2 ^ 32 - 1` other characters the index of the
loop of `HasNestedCurlyBrackets` wraps to 0 and meets the first `{` again. -/
theorem nestedLoop_wrap (n : Nat) (hn : 2 ^ 32 ≤ n + 1) :
    ∀ (k fuel i : Nat), i + k = 2 ^ 32 → 1 ≤ i → k + 1 ≤ fuel →
      nestedLoop ('{' :: List.replicate n 'a') fuel (i % 2 ^ 32) '{' = some true := by
  intro k
  induction k with
  | zero =>
    intro fuel i hi _ hf
    have hi0 : i % 2 ^ 32 = 0 := by
      have : i = 2 ^ 32 := by omega
      rw [this, Nat.mod_self]
    obtain ⟨fuel, rfl⟩ : ∃ f, fuel = f + 1 := ⟨fuel - 1, by omega⟩
    rw [hi0, nestedLoop, dif_pos (by simp)]
    simp [nestedOpen]
  | succ k ih =>
    intro fuel i hi h1 hf
    have hilt : i < 2 ^ 32 := by omega
    have hi' : i % 2 ^ 32 = i := Nat.mod_eq_of_lt hilt
    obtain ⟨fuel, rfl⟩ : ∃ f, fuel = f + 1 := ⟨fuel - 1, by omega⟩
    have hlt : i < ('{' :: List.replicate n 'a').length := by
      simp only [List.length_cons, List.length_replicate]
      omega
    obtain ⟨j, rfl⟩ : ∃ j, i = j + 1 := ⟨i - 1, by omega⟩
    have hget : ('{' :: List.replicate n 'a')[j + 1] = 'a' := by
      simp
    rw [hi', nestedLoop, dif_pos hlt, hget]
    have hstep : (nestedOpen 'a' '{').bind (nestedClose 'a') = some '{' := by decide
    rw [hstep]
    exact ih fuel (j + 1 + 1) (by omega) (by omega) (by omega)

theorem hasNestedCurlyBrackets_wrap (n : Nat) (hn : 2 ^ 32 ≤ n + 1) :
    HasNestedCurlyBrackets ('{' :: List.replicate n 'a') = some true := by
  unfold HasNestedCurlyBrackets
  have hlen : ('{' :: List.replicate n 'a').length = n + 1 := by simp
  rw [hlen]
  have hfuel : n + 1 + 2 ^ 32 + 1 = (n + 2 ^ 32 + 1) + 1 := by omega
  rw [hfuel, nestedLoop, dif_pos (by simp)]
  have hstep : (nestedOpen ('{' :: List.replicate n 'a')[0] ' ').bind
      (nestedClose ('{' :: List.replicate n 'a')[0]) = some '{' := by
    simp only [List.getElem_cons_zero]
    decide
  rw [hstep]
  have h1 : (0 + 1) % 2 ^ 32 = 1 % 2 ^ 32 := rfl
  rw [h1]
  exact nestedLoop_wrap n hn (2 ^ 32 - 1) _ 1 (by norm_num) (le_refl 1) (by omega)

theorem reachesSame_nil (b : Char) : ¬ ReachesSame [] b := by
  rintro ⟨j, hj, -⟩
  simp at hj

theorem reachesSame_cons (x b : Char) (rest : List Char) :
    ReachesSame (x :: rest) b ↔
      x = b ∨ (¬ (x = '{' ∨ x = '}') ∧ ReachesSame rest b) := by
  constructor
  · rintro ⟨j, hj, hbefore⟩
    cases j with
    | zero => left; simpa using hj
    | succ j =>
      by_cases hx : x = '{' ∨ x = '}'
      · left
        exact hbefore 0 x (Nat.succ_pos j) (by simp) hx
      · right
        refine ⟨hx, j, by simpa using hj, ?_⟩
        intro k c hk hkc hc
        exact hbefore (k + 1) c (by omega) (by simpa using hkc) hc
  · rintro (rfl | ⟨hx, j, hj, hbefore⟩)
    · exact ⟨0, by simp, fun k c hk => absurd hk (Nat.not_lt_zero k)⟩
    · refine ⟨j + 1, by simpa using hj, ?_⟩
      intro k c hk hkc hc
      cases k with
      | zero =>
        have : x = c := by simpa using hkc
        exact absurd (this ▸ hc) hx
      | succ k => exact hbefore k c (by omega) (by simpa using hkc) hc

theorem sameKindPair_nil : ¬ SameKindPair [] := by
  rintro ⟨b, i, j, -, -, hi, -⟩
  simp at hi

theorem sameKindPair_cons (x : Char) (rest : List Char) :
    SameKindPair (x :: rest) ↔
      ((x = '{' ∨ x = '}') ∧ ReachesSame rest x) ∨ SameKindPair rest := by
  constructor
  · rintro ⟨b, i, j, hb, hij, hi, hj, hbetween⟩
    cases j with
    | zero => omega
    | succ j =>
      cases i with
      | zero =>
        left
        have hxb : x = b := by simpa using hi
        subst hxb
        refine ⟨hb, j, by simpa using hj, ?_⟩
        intro k c hk hkc hc
        exact hbetween (k + 1) c (by omega) (by omega) (by simpa using hkc) hc
      | succ i =>
        right
        refine ⟨b, i, j, hb, by omega, by simpa using hi, by simpa using hj, ?_⟩
        intro k c hik hkj hkc hc
        exact hbetween (k + 1) c (by omega) (by omega) (by simpa using hkc) hc
  · rintro (⟨hx, j, hj, hbefore⟩ | ⟨b, i, j, hb, hij, hi, hj, hbetween⟩)
    · refine ⟨x, 0, j + 1, hx, by omega, by simp, by simpa using hj, ?_⟩
      intro k c hik hkj hkc hc
      cases k with
      | zero => omega
      | succ k => exact hbefore k c (by omega) (by simpa using hkc) hc
    · refine ⟨b, i + 1, j + 1, hb, by omega, by simpa using hi, by simpa using hj, ?_⟩
      intro k c hik hkj hkc hc
      cases k with
      | zero => omega
      | succ k => exact hbetween k c (by omega) (by omega) (by simpa using hkc) hc

/-- The loop invariant of `HasNestedCurlyBrackets`: with `lastBracket` the last
brace seen so far, the loop answers `true` exactly when the rest of the path
repeats `lastBracket` before any opposite brace, or holds a same-kind pair of
its own. -/
theorem nestedScan_iff (p : List Char) (lastBracket : Char) :
    nestedScan p lastBracket = true ↔
      ((lastBracket = '{' ∨ lastBracket = '}') ∧ ReachesSame p lastBracket)
        ∨ SameKindPair p := by
  induction p generalizing lastBracket with
  | nil => simp [nestedScan, reachesSame_nil, sameKindPair_nil]
  | cons x rest ih =>
    rw [reachesSame_cons, sameKindPair_cons]
    have hne : ('{' : Char) ≠ '}' := by decide
    by_cases h1 : x = '{'
    · subst h1
      by_cases h2 : lastBracket = '{'
      · subst h2
        simp [nestedScan, nestedOpen]
      · have h2' : ¬ ('{' = lastBracket) := fun h => h2 h.symm
        simp [nestedScan, nestedOpen, nestedClose, h2, h2', ih]
    · by_cases h3 : x = '}'
      · subst h3
        by_cases h4 : lastBracket = '}'
        · subst h4
          simp [nestedScan, nestedOpen, nestedClose]
        · have h4' : ¬ ('}' = lastBracket) := fun h => h4 h.symm
          simp [nestedScan, nestedOpen, nestedClose, h4, h4', ih]
      · by_cases h5 : x = lastBracket
        · subst h5
          simp [nestedScan, nestedOpen, nestedClose, h1, h3, ih]
        · simp [nestedScan, nestedOpen, nestedClose, h1, h3, h5, ih]

theorem adjacentEqual_nil : ¬ AdjacentEqual [] := by
  rintro ⟨i, h, -⟩
  simp at h

theorem adjacentEqual_cons (a : Char) (l : List Char) :
    AdjacentEqual (a :: l) ↔ l.head? = some a ∨ AdjacentEqual l := by
  constructor
  · rintro ⟨i, h, heq⟩
    cases i with
    | zero =>
      left
      cases l with
      | nil => simp at h
      | cons b t => simpa using heq.symm
    | succ i =>
      right
      exact ⟨i, by simpa using h, by simpa using heq⟩
  · rintro (h | ⟨i, h, heq⟩)
    · cases l with
      | nil => simp at h
      | cons b t =>
        have hb : b = a := by simpa using h
        exact ⟨0, by simp, by simp [hb]⟩
    · exact ⟨i + 1, by simpa using h, by simpa using heq⟩

theorem curlySeq_cons (x : Char) (rest : List Char) :
    curlySeq (x :: rest) =
      if x = '{' ∨ x = '}' then x :: curlySeq rest else curlySeq rest := by
  by_cases h : x = '{' ∨ x = '}'
  · have : (x == '{' || x == '}') = true := by simpa using h
    simp [curlySeq, List.filter_cons, this, h]
  · have : (x == '{' || x == '}') = false := by simpa using h
    simp [curlySeq, List.filter_cons, this, h]

/-- The same loop invariant read on the brace subsequence: the loop answers
`true` exactly when the brace subsequence starts with `lastBracket` or has two
equal neighbours. -/
theorem nestedScan_iff_adjacent (p : List Char) (lastBracket : Char) :
    nestedScan p lastBracket = true ↔
      ((lastBracket = '{' ∨ lastBracket = '}') ∧ (curlySeq p).head? = some lastBracket)
        ∨ AdjacentEqual (curlySeq p) := by
  induction p generalizing lastBracket with
  | nil => simp [nestedScan, curlySeq, adjacentEqual_nil]
  | cons x rest ih =>
    rw [curlySeq_cons]
    have hne : ('{' : Char) ≠ '}' := by decide
    by_cases h1 : x = '{'
    · subst h1
      by_cases h2 : lastBracket = '{'
      · subst h2
        simp [nestedScan, nestedOpen]
      · have h2' : ¬ ('{' = lastBracket) := fun h => h2 h.symm
        simp [nestedScan, nestedOpen, nestedClose, h2, h2', ih, adjacentEqual_cons]
    · by_cases h3 : x = '}'
      · subst h3
        by_cases h4 : lastBracket = '}'
        · subst h4
          simp [nestedScan, nestedOpen, nestedClose]
        · have h4' : ¬ ('}' = lastBracket) := fun h => h4 h.symm
          simp [nestedScan, nestedOpen, nestedClose, h4, h4', ih, adjacentEqual_cons]
      · simp [nestedScan, nestedOpen, nestedClose, h1, h3, ih]

theorem curlySeq_replicate (n : Nat) : curlySeq (List.replicate n 'a') = [] := by
  induction n with
  | zero => rfl
  | succ n ih =>
    rw [List.replicate_succ, curlySeq_cons, ih]
    have : ¬ (('a' : Char) = '{' ∨ ('a' : Char) = '}') := by decide
    rw [if_neg this]

theorem not_nested_iff_of_wrap (n : Nat) (hn : 2 ^ 32 ≤ n + 1) :
    ¬ (HasNestedCurlyBrackets ('{' :: List.replicate n 'a') = some true
        ↔ AdjacentEqual (curlySeq ('{' :: List.replicate n 'a'))) := by
  intro h
  have hadj := h.mp (hasNestedCurlyBrackets_wrap n hn)
  rw [curlySeq_cons, curlySeq_replicate] at hadj
  simp only [true_or, if_true] at hadj
  obtain ⟨i, hi, -⟩ := hadj
  simp at hi

/-- C2: on the path `{` followed by `2 ^ 32` characters `a` the statement
fails: `HasNestedCurlyBrackets` returns true (its 32-bit index wraps to 0 and
meets the `{` again) although the brace subsequence is the single `{`. -/
theorem hasNestedCurlyBrackets_long_path :
    ¬ (HasNestedCurlyBrackets ('{' :: List.replicate (2 ^ 32) 'a') = some true
        ↔ AdjacentEqual (curlySeq ('{' :: List.replicate (2 ^ 32) 'a'))) :=
  not_nested_iff_of_wrap (2 ^ 32) (Nat.le_succ _)

/-- C2, as amended: on every path of fewer than `2 ^ 32` characters
`HasNestedCurlyBrackets` returns, and it returns true exactly when the
subsequence of curly-brace characters of the path has two equal neighbours,
which is to say that two positions `i < j` hold the same kind of brace with no
brace of the opposite kind between them; and it returns false exactly when the
brace subsequence has no two equal neighbours. -/
theorem hasNestedCurlyBrackets_iff (path : URITemplate) (hlen : path.length < 2 ^ 32) :
    (∃ b, HasNestedCurlyBrackets path = some b)
      ∧ (HasNestedCurlyBrackets path = some true ↔ AdjacentEqual (curlySeq path))
      ∧ (HasNestedCurlyBrackets path = some true ↔ SameKindPair path)
      ∧ (HasNestedCurlyBrackets path = some false ↔ ¬ AdjacentEqual (curlySeq path)) := by
  have hsp : ¬ ((' ' : Char) = '{' ∨ (' ' : Char) = '}') := by decide
  have hv := hasNestedCurlyBrackets_of_short path hlen
  have h1 : nestedScan path ' ' = true ↔ AdjacentEqual (curlySeq path) := by
    rw [nestedScan_iff_adjacent]
    simp [hsp]
  have h2 : nestedScan path ' ' = true ↔ SameKindPair path := by
    rw [nestedScan_iff]
    simp [hsp]
  rw [hv]
  refine ⟨⟨_, rfl⟩, ?_, ?_, ?_⟩
  · rw [← h1]; simp
  · rw [← h2]; simp
  · rw [← h1]; simp

/-- The witness of C2: the path `/{a{b}c}`. -/
theorem hasNestedCurlyBrackets_iff_witness :
    "/\x7ba\x7bb\x7dc\x7d".toList.length < 2 ^ 32
      ∧ ((∃ b, HasNestedCurlyBrackets "/\x7ba\x7bb\x7dc\x7d".toList = some b)
        ∧ (HasNestedCurlyBrackets "/\x7ba\x7bb\x7dc\x7d".toList = some true
            ↔ AdjacentEqual (curlySeq "/\x7ba\x7bb\x7dc\x7d".toList))
        ∧ (HasNestedCurlyBrackets "/\x7ba\x7bb\x7dc\x7d".toList = some true
            ↔ SameKindPair "/\x7ba\x7bb\x7dc\x7d".toList)
        ∧ (HasNestedCurlyBrackets "/\x7ba\x7bb\x7dc\x7d".toList = some false
            ↔ ¬ AdjacentEqual (curlySeq "/\x7ba\x7bb\x7dc\x7d".toList)))
      ∧ HasNestedCurlyBrackets "/\x7ba\x7bb\x7dc\x7d".toList = some true :=
  ⟨by decide, hasNestedCurlyBrackets_iff _ (by decide), by decide⟩

theorem findAux_of_not_mem (c : Char) (l : List Char) (i : Nat) (h : c ∉ l) :
    findAux c l i = npos := by
  induction l generalizing i with
  | nil => rfl
  | cons x rest ih =>
    have hx : ¬ x = c := fun e => h (by simp [e])
    have hr : c ∉ rest := fun e => h (by simp [e])
    simp [findAux, hx, ih _ hr]

theorem findAux_of_mem (c : Char) (l : List Char) (i : Nat) (h : c ∈ l) :
    ∃ k, findAux c l i = i + k ∧ k < l.length ∧ l[k]? = some c
      ∧ l.takeWhile (fun x => x != c) = l.take k := by
  induction l generalizing i with
  | nil => simp at h
  | cons x rest ih =>
    by_cases hx : x = c
    · exact ⟨0, by simp [findAux, hx], by simp, by simp [hx], by simp [hx]⟩
    · have hr : c ∈ rest := by
        rcases List.mem_cons.mp h with e | e
        · exact absurd e.symm hx
        · exact e
      obtain ⟨k, h1, h2, h3, h4⟩ := ih (i + 1) hr
      refine ⟨k + 1, ?_, by simpa using h2, by simpa using h3, ?_⟩
      · simp [findAux, hx, h1]; omega
      · simp [List.takeWhile_cons, hx, h4]

theorem scanSpans_of_not_mem (l : List Char) (h : '{' ∉ l) : scanSpans l = [] := by
  induction l with
  | nil => rfl
  | cons x rest ih =>
    have hx : ¬ x = '{' := fun e => h (by simp [e])
    have hr : '{' ∉ rest := fun e => h (by simp [e])
    simp [scanSpans, hx, ih hr]

theorem scanSpans_drop (l : List Char) (k : Nat)
    (h : l.takeWhile (fun x => x != '{') = l.take k) :
    scanSpans l = scanSpans (l.drop k) := by
  induction l generalizing k with
  | nil => simp
  | cons x rest ih =>
    cases k with
    | zero => simp
    | succ k =>
      by_cases hx : x = '{'
      · simp [List.takeWhile_cons, hx] at h
      · have h' : rest.takeWhile (fun x => x != '{') = rest.take k := by
          simpa [List.takeWhile_cons, hx] using h
        simp [scanSpans, hx, ih k h']

/-- The extraction loop, started at position `n` with enough fuel, appends
`scanSpans` of the characters from `n` on. -/
theorem extractLoop_eq (s : List Char) (hlen : s.length < npos) :
    ∀ (fuel n e : Nat) (acc : Expressions), n ≤ s.length → e ≠ npos →
      s.length - n + 1 ≤ fuel →
      extractLoop s fuel n e acc = some (acc ++ scanSpans (s.drop n)) := by
  intro fuel
  induction fuel with
  | zero => intro n e acc _ _ hf; omega
  | succ fuel ih =>
    intro n e acc hn he hf
    have hnn : n ≠ npos := by omega
    by_cases hlt : n < s.length
    · -- the loop body runs
      by_cases hopen : '{' ∈ s.drop n
      · obtain ⟨k, hk1, hk2, hk3, hk4⟩ := findAux_of_mem '{' (s.drop n) n hopen
        have hklen : n + k < s.length := by
          have : k < s.length - n := by simpa using hk2
          omega
        have hsp : find s '{' n = n + k := hk1
        have hget : s[n + k]? = some '{' := by
          simpa [List.getElem?_drop] using hk3
        have hdrop : s.drop (n + k) = '{' :: s.drop (n + k + 1) := by
          have hg : s[n + k] = '{' := by
            have := List.getElem?_eq_getElem hklen
            rw [this] at hget
            exact Option.some.inj hget
          rw [List.drop_eq_getElem_cons hklen, hg]
        have hscan : scanSpans (s.drop n) = scanSpans ('{' :: s.drop (n + k + 1)) := by
          rw [scanSpans_drop (s.drop n) k hk4, List.drop_drop, ← hdrop]
        have hne : ¬ ('{' : Char) = '}' := by decide
        have hfind2 : find s '}' (n + k) = findAux '}' (s.drop (n + k + 1)) (n + k + 1) := by
          simp [find, hdrop, findAux, hne]
        have hspnpos : n + k ≠ npos := by omega
        have hmod : (n + k + 1) % 2 ^ 64 = n + k + 1 := by
          apply Nat.mod_eq_of_lt
          rw [npos_eq] at hlen
          omega
        by_cases hclose : '}' ∈ s.drop (n + k + 1)
        · obtain ⟨m, hm1, hm2, hm3, hm4⟩ :=
            findAux_of_mem '}' (s.drop (n + k + 1)) (n + k + 1) hclose
          have hmlen : n + k + 1 + m < s.length := by
            have : m < s.length - (n + k + 1) := by simpa using hm2
            omega
          have hep : find s '}' (n + k) = n + k + 1 + m := by rw [hfind2, hm1]
          have hepn : n + k + 1 + m ≠ npos := by omega
          have hsub : substr s (n + k + 1) (n + k + 1 + m - (n + k) - 1)
              = (s.drop (n + k + 1)).takeWhile (fun x => x != '}') := by
            have : n + k + 1 + m - (n + k) - 1 = m := by omega
            rw [this, hm4, substr]
          have hgt : n + k + 1 + m > n + k := by omega
          rw [extractLoop]
          simp only [hnn, he, hlt, ne_eq, not_false_eq_true, and_self, if_true, hsp, hep,
            hspnpos, hgt, hsub, hmod]
          rw [ih (n + k + 1) (n + k + 1 + m) _ (by omega) hepn (by omega), hscan]
          simp [scanSpans, hclose]
        · have hep : find s '}' (n + k) = npos := by
            rw [hfind2, findAux_of_not_mem _ _ _ hclose]
          have hsub : substr s (n + k + 1) (npos - (n + k) - 1) = s.drop (n + k + 1) := by
            rw [substr]
            apply List.take_of_length_le
            simp only [List.length_drop]
            omega
          have hgt : npos > n + k := by omega
          rw [extractLoop]
          simp only [hnn, he, hlt, ne_eq, not_false_eq_true, and_self, if_true, hsp, hep,
            hspnpos, hgt, hsub, hmod]
          cases fuel with
          | zero => omega
          | succ fuel =>
            rw [extractLoop, hscan]
            simp [scanSpans, hclose]
      · have hsp : find s '{' n = npos := findAux_of_not_mem _ _ _ hopen
        have hep : find s '}' npos = npos := by
          have : s.drop npos = [] := List.drop_eq_nil_of_le (by omega)
          simp [find, this, findAux]
        have hmod : (npos + 1) % 2 ^ 64 = 0 := by decide
        rw [extractLoop]
        simp only [hnn, he, hlt, ne_eq, not_false_eq_true, and_self, if_true, hsp, hep,
          not_true_eq_false, false_and, if_false, hmod]
        cases fuel with
        | zero => omega
        | succ fuel =>
          rw [extractLoop, scanSpans_of_not_mem _ hopen]
          simp
    · have hnl : n = s.length := by omega
      rw [extractLoop]
      simp [hlt, hnl, scanSpans]

/-- What `GetUriTemplateExpressions` returns on any path. -/
theorem getUriTemplateExpressions_eq_scanSpans (s : URITemplate) (hlen : s.length < npos) :
    GetUriTemplateExpressions s = some (scanSpans s) := by
  unfold GetUriTemplateExpressions
  rw [extractLoop_eq s hlen _ 0 0 [] (Nat.zero_le _) (by decide) (by omega)]
  simp

theorem scanSpans_drop_eq_map (s : List Char) (h : EveryOpenIsClosed s) :
    ∀ d n : Nat, n + d = s.length →
      scanSpans (s.drop n)
        = ((List.range' n d).filter (fun i => s[i]? == some '{')).map (textToClose s) := by
  intro d
  induction d with
  | zero =>
    intro n hn
    have : s.drop n = [] := List.drop_eq_nil_of_le (by omega)
    simp [this, scanSpans]
  | succ d ih =>
    intro n hn
    have hlt : n < s.length := by omega
    rw [List.drop_eq_getElem_cons hlt, List.range'_succ, List.filter_cons]
    have hrec := ih (n + 1) (by omega)
    by_cases hx : s[n] = '{'
    · have hget : s[n]? = some '{' := by rw [List.getElem?_eq_getElem hlt, hx]
      obtain ⟨j, hj, hnj, hjc⟩ := h n hlt hget
      have hmem : '}' ∈ s.drop (n + 1) := by
        rw [List.mem_iff_getElem?]
        refine ⟨j - (n + 1), ?_⟩
        rw [List.getElem?_drop]
        have : n + 1 + (j - (n + 1)) = j := by omega
        rw [this, hjc]
      simp [scanSpans, hx, hmem, hget, hrec, textToClose]
    · have hget : ¬ s[n]? = some '{' := by
        rw [List.getElem?_eq_getElem hlt]
        exact fun e => hx (Option.some.inj e)
      simp [scanSpans, hx, hget, hrec]

theorem length_filter_open (s : List Char) :
    ∀ d n : Nat, n + d = s.length →
      ((List.range' n d).filter (fun i => s[i]? == some '{')).length
        = (s.drop n).count '{' := by
  intro d
  induction d with
  | zero =>
    intro n hn
    have : s.drop n = [] := List.drop_eq_nil_of_le (by omega)
    simp [this]
  | succ d ih =>
    intro n hn
    have hlt : n < s.length := by omega
    rw [List.drop_eq_getElem_cons hlt, List.range'_succ, List.filter_cons, List.count_cons]
    have hrec := ih (n + 1) (by omega)
    by_cases hx : s[n] = '{'
    · have hget : s[n]? = some '{' := by rw [List.getElem?_eq_getElem hlt, hx]
      simp [hx, hget, hrec]
    · have hget : ¬ s[n]? = some '{' := by
        rw [List.getElem?_eq_getElem hlt]
        exact fun e => hx (Option.some.inj e)
      simp [hx, hget, hrec]

/-- C4: on a path in which every `{` has some `}` at a later position,
`GetUriTemplateExpressions` returns one expression per `{` character, in
left-to-right order of the `{` positions, each being the text strictly between
that `{` and the first `}` after it. -/
theorem getUriTemplateExpressions_of_everyOpenIsClosed (path : URITemplate)
    (hlen : path.length < npos) (h : EveryOpenIsClosed path) :
    ∃ expressions, GetUriTemplateExpressions path = some expressions
      ∧ expressions.length = path.count '{'
      ∧ expressions = (openPositions path).map (textToClose path) := by
  have hmap := scanSpans_drop_eq_map path h path.length 0 (by omega)
  have hcount := length_filter_open path path.length 0 (by omega)
  rw [← List.range_eq_range'] at hmap hcount
  simp only [List.drop_zero] at hmap hcount
  refine ⟨scanSpans path, getUriTemplateExpressions_eq_scanSpans path hlen, ?_, hmap⟩
  rw [hmap, List.length_map]
  exact hcount

/-- The witness of C4: the path `/{id}{name}` yields `id` and `name`. -/
theorem getUriTemplateExpressions_of_everyOpenIsClosed_witness :
    "/\x7bid\x7d\x7bname\x7d".toList.length < npos
      ∧ EveryOpenIsClosed "/\x7bid\x7d\x7bname\x7d".toList
      ∧ (∃ expressions,
          GetUriTemplateExpressions "/\x7bid\x7d\x7bname\x7d".toList = some expressions
          ∧ expressions.length = "/\x7bid\x7d\x7bname\x7d".toList.count '{'
          ∧ expressions = (openPositions "/\x7bid\x7d\x7bname\x7d".toList).map
              (textToClose "/\x7bid\x7d\x7bname\x7d".toList))
      ∧ (openPositions "/\x7bid\x7d\x7bname\x7d".toList).map
          (textToClose "/\x7bid\x7d\x7bname\x7d".toList) = ["id".toList, "name".toList] :=
  ⟨by decide, by decide,
    getUriTemplateExpressions_of_everyOpenIsClosed _ (by decide) (by decide), by decide⟩

/-- C3: `GetUriTemplateExpressions` evaluated on the path `/}{`, which passes
both validator checks: it returns one (empty) expression although the path has
no `{` followed by a `}`, and `{}` does not occur in the path. -/
theorem getUriTemplateExpressions_open_after_close :
    HasMismatchedCurlyBrackets ['/', '}', '{'] = some false
      ∧ HasNestedCurlyBrackets ['/', '}', '{'] = some false
      ∧ GetUriTemplateExpressions ['/', '}', '{'] = some [[]]
      ∧ closedSpanCount ['/', '}', '{'] = 0
      ∧ ¬ (['{'] ++ ([] : List Char) ++ ['}'] <:+: ['/', '}', '{']) := by
  decide

/-- C5: `ClassifyExpression` evaluated on the expression `;id`, for which the
path-style parameter predicate is the first that holds: the returned object is
the path segment expansion one. -/
theorem classifyExpression_pathStyleParameter :
    sampleHeader.IsExpressionType .Variable [';', 'i', 'd'] = false
      ∧ sampleHeader.IsExpressionType .QueryString [';', 'i', 'd'] = false
      ∧ sampleHeader.IsExpressionType .Fragment [';', 'i', 'd'] = false
      ∧ sampleHeader.IsExpressionType .ReservedExpansion [';', 'i', 'd'] = false
      ∧ sampleHeader.IsExpressionType .LabelExpansion [';', 'i', 'd'] = false
      ∧ sampleHeader.IsExpressionType .PathSegmentExpansion [';', 'i', 'd'] = false
      ∧ sampleHeader.IsExpressionType .PathStyleParameterExpansion [';', 'i', 'd'] = true
      ∧ (ClassifyExpression sampleHeader [';', 'i', 'd']).form = .PathSegmentExpansion
      ∧ ClassifyExpression sampleHeader [';', 'i', 'd']
          ≠ construct sampleHeader .PathStyleParameterExpansion [';', 'i', 'd'] := by
  decide

/-- C6: called with the empty URI, `parse` returns with the result record
unchanged: no warning is appended and scheme, host and path keep their
values. -/
theorem parse_empty (RegexCapture : RegexCaptureFn) (H : Header)
    (sourceBlock : CharactersRangeSet) (result : ParsedURITemplate) :
    parse RegexCapture H [] sourceBlock result = some result := by
  simp [parse]

/-- C7: when the URI is not empty and the decomposition fails, `parse` appends
exactly one warning, `failed to parse URI Template` with category `URIWarning`,
subcode `NoUriTemplateWarningSubCode` and no source range, and leaves scheme,
host and path unchanged. -/
theorem parse_decomposition_failure (RegexCapture : RegexCaptureFn) (H : Header)
    (uri : URITemplate) (sourceBlock : CharactersRangeSet) (result : ParsedURITemplate)
    (hne : uri ≠ []) (hfail : RegexCapture uri = none) :
    parse RegexCapture H uri sourceBlock result
      = some { scheme := result.scheme, host := result.host, path := result.path,
               report := { warnings := result.report.warnings ++
                 [{ message := "failed to parse URI Template", code := .URIWarning,
                    subCode := .NoUriTemplateWarningSubCode, location := none }] } } := by
  have he : uri.isEmpty = false := by
    cases uri with
    | nil => exact absurd rfl hne
    | cons a t => rfl
  simp [parse, he, hfail, pushWarning]

/-- The witness of C7: the URI `:` with a decomposition that fails on it. -/
theorem parse_decomposition_failure_witness :
    ([':'] : URITemplate) ≠ []
      ∧ (fun _ => none : RegexCaptureFn) [':'] = none
      ∧ parse (fun _ => none) sampleHeader [':'] [(0, 1)] emptyResult
        = some { scheme := emptyResult.scheme, host := emptyResult.host,
                 path := emptyResult.path,
                 report := { warnings := emptyResult.report.warnings ++
                   [{ message := "failed to parse URI Template", code := .URIWarning,
                      subCode := .NoUriTemplateWarningSubCode, location := none }] } } :=
  ⟨by decide, rfl,
    parse_decomposition_failure (fun _ => none) sampleHeader [':'] [(0, 1)] emptyResult
      (by decide) rfl⟩

theorem isEmpty_eq_false_of_ne_nil (uri : URITemplate) (hne : uri ≠ []) :
    uri.isEmpty = false := by
  cases uri with
  | nil => exact absurd rfl hne
  | cons a t => rfl

/-- C8: when the decomposition succeeds with a path whose braces are
mismatched, `parse` sets scheme, host and path to capture groups 1, 3 and 4 and
appends exactly one warning, the mismatched-brackets one carrying the source
block, and nothing else. -/
theorem parse_mismatched (RegexCapture : RegexCaptureFn) (H : Header)
    (uri : URITemplate) (sourceBlock : CharactersRangeSet) (result : ParsedURITemplate)
    (groups : Fin 5 → List Char)
    (hne : uri ≠ []) (hmatch : RegexCapture uri = some groups)
    (hmis : HasMismatchedCurlyBrackets (groups 4) = some true) :
    parse RegexCapture H uri sourceBlock result
      = some (decomposed groups (result.report.warnings ++
          [{ message := "the URI template contains mismatched expression brackets",
             code := .URIWarning,
             subCode := .MismatchedCurlyBracketsWarningUriTemplateWarningSubCode,
             location := some sourceBlock }])) := by
  simp [parse, isEmpty_eq_false_of_ne_nil uri hne, hmatch, hmis, pushWarning, decomposed]

/-- C9: when the decomposition succeeds with a path whose braces are balanced
but nested, `parse` appends exactly one warning, the nested-brackets one
carrying the source block, and nothing else. -/
theorem parse_nested (RegexCapture : RegexCaptureFn) (H : Header)
    (uri : URITemplate) (sourceBlock : CharactersRangeSet) (result : ParsedURITemplate)
    (groups : Fin 5 → List Char)
    (hne : uri ≠ []) (hmatch : RegexCapture uri = some groups)
    (hmis : HasMismatchedCurlyBrackets (groups 4) = some false)
    (hnest : HasNestedCurlyBrackets (groups 4) = some true) :
    parse RegexCapture H uri sourceBlock result
      = some (decomposed groups (result.report.warnings ++
          [{ message := "the URI template contains nested expression brackets",
             code := .URIWarning,
             subCode := .NestedCurlyBracketsWarningUriTemplateWarningSubCode,
             location := some sourceBlock }])) := by
  simp [parse, isEmpty_eq_false_of_ne_nil uri hne, hmatch, hmis, hnest, pushWarning,
    decomposed]

/-- The witness of C8: the path `/{{id}`, which is nested as well. -/
theorem parse_mismatched_witness :
    "http://api.com/\x7b\x7bid\x7d".toList ≠ []
      ∧ HasMismatchedCurlyBrackets
          (captureGroups "http".toList "api.com".toList "/\x7b\x7bid\x7d".toList 4) = some true
      ∧ HasNestedCurlyBrackets "/\x7b\x7bid\x7d".toList = some true
      ∧ parse (fun _ => some
            (captureGroups "http".toList "api.com".toList "/\x7b\x7bid\x7d".toList))
          sampleHeader "http://api.com/\x7b\x7bid\x7d".toList [(0, 20)] emptyResult
        = some (decomposed
            (captureGroups "http".toList "api.com".toList "/\x7b\x7bid\x7d".toList)
            (emptyResult.report.warnings ++
              [{ message := "the URI template contains mismatched expression brackets",
                 code := .URIWarning,
                 subCode := .MismatchedCurlyBracketsWarningUriTemplateWarningSubCode,
                 location := some [(0, 20)] }])) :=
  ⟨by decide, by decide, by decide,
    parse_mismatched _ sampleHeader _ [(0, 20)] emptyResult _ (by decide) rfl (by decide)⟩

/-- The witness of C9: the path `/{a{b}c}`. -/
theorem parse_nested_witness :
    "http://api.com/\x7ba\x7bb\x7dc\x7d".toList ≠ []
      ∧ HasMismatchedCurlyBrackets
          (captureGroups "http".toList "api.com".toList "/\x7ba\x7bb\x7dc\x7d".toList 4) = some false
      ∧ HasNestedCurlyBrackets
          (captureGroups "http".toList "api.com".toList "/\x7ba\x7bb\x7dc\x7d".toList 4) = some true
      ∧ parse (fun _ => some
            (captureGroups "http".toList "api.com".toList "/\x7ba\x7bb\x7dc\x7d".toList))
          sampleHeader "http://api.com/\x7ba\x7bb\x7dc\x7d".toList [(0, 22)] emptyResult
        = some (decomposed
            (captureGroups "http".toList "api.com".toList "/\x7ba\x7bb\x7dc\x7d".toList)
            (emptyResult.report.warnings ++
              [{ message := "the URI template contains nested expression brackets",
                 code := .URIWarning,
                 subCode := .NestedCurlyBracketsWarningUriTemplateWarningSubCode,
                 location := some [(0, 22)] }])) :=
  ⟨by decide, by decide, by decide,
    parse_nested _ sampleHeader _ [(0, 22)] emptyResult _ (by decide) rfl (by decide)
      (by decide)⟩

theorem processExpression_eq (H : Header) (sourceBlock : CharactersRangeSet)
    (result : ParsedURITemplate) (expression : Expression) :
    processExpression H sourceBlock result expression
      = { result with report := { warnings := (result.report.warnings ++
            expressionWarnings H sourceBlock (ClassifyExpression H expression)) } } := by
  cases h0 : H.IsSupportedExpressionType (ClassifyExpression H expression) <;>
  cases h1 : H.ContainsSpaces (ClassifyExpression H expression) <;>
  cases h2 : H.ContainsHyphens (ClassifyExpression H expression) <;>
  cases h3 : H.ContainsAssignment (ClassifyExpression H expression) <;>
  cases h4 : H.IsInvalidExpressionName (ClassifyExpression H expression) <;>
  simp [processExpression, expressionWarnings, illegalCheck, pushWarning, message,
    h0, h1, h2, h3, h4]

theorem processExpressions_eq (H : Header) (sourceBlock : CharactersRangeSet)
    (expressions : Expressions) (result : ParsedURITemplate) :
    processExpressions H sourceBlock result expressions
      = { result with report := { warnings := (result.report.warnings ++
            expressions.flatMap
              (fun e => expressionWarnings H sourceBlock (ClassifyExpression H e))) } } := by
  induction expressions generalizing result with
  | nil => simp [processExpressions]
  | cons e rest ih =>
    rw [processExpressions, ih, processExpression_eq]
    simp [List.flatMap_cons]

theorem expressionWarnings_exclusive (H : Header) (sourceBlock : CharactersRangeSet)
    (c : ClassifiedExpression) (w w' : Warning)
    (hw : w ∈ expressionWarnings H sourceBlock c)
    (hinv : w.subCode = .InvalidCharactersWarningUriTemplateWarningSubCode)
    (hw' : w' ∈ expressionWarnings H sourceBlock c) :
    w'.subCode ∉ illegalCharacterSubCodes := by
  unfold expressionWarnings at hw hw'
  revert hw hw'
  cases h0 : H.IsSupportedExpressionType c <;>
  cases h1 : H.ContainsSpaces c <;>
  cases h2 : H.ContainsHyphens c <;>
  cases h3 : H.ContainsAssignment c <;>
  cases h4 : H.IsInvalidExpressionName c <;>
  simp [illegalCharacterSubCodes] <;>
  aesop

/-- C10: when the decomposition succeeds with a path that passes both
curly-brace checks, the warnings `parse` appends after the optional
square-bracket warning are the concatenation, in the order of
`GetUriTemplateExpressions`, of one block per expression: the
unsupported-expression warning alone when the classified expression is not
supported, otherwise the spaces, hyphens and assignment warnings that fire, in
that order, and the invalid-characters warning only when none of those three
fired. In a block, an invalid-characters warning never stands with a spaces,
hyphens or assignment warning. -/
theorem parse_expression_warnings (RegexCapture : RegexCaptureFn) (H : Header)
    (uri : URITemplate) (sourceBlock : CharactersRangeSet) (result : ParsedURITemplate)
    (groups : Fin 5 → List Char)
    (hne : uri ≠ []) (hmatch : RegexCapture uri = some groups)
    (hmis : HasMismatchedCurlyBrackets (groups 4) = some false)
    (hnest : HasNestedCurlyBrackets (groups 4) = some false) :
    ∃ expressions, GetUriTemplateExpressions (groups 4) = some expressions
      ∧ parse RegexCapture H uri sourceBlock result
        = some (decomposed groups (result.report.warnings
            ++ (if PathContainsSquareBrackets (groups 4) then
                  [{ message := "the URI template contains square brackets",
                     code := .URIWarning,
                     subCode := .SquareBracketWarningUriTemplateWarningSubCode,
                     location := some sourceBlock }]
                else [])
            ++ expressions.flatMap
                (fun e => expressionWarnings H sourceBlock (ClassifyExpression H e))))
      ∧ ∀ e ∈ expressions,
          ∀ w ∈ expressionWarnings H sourceBlock (ClassifyExpression H e),
            w.subCode = .InvalidCharactersWarningUriTemplateWarningSubCode →
            ∀ v ∈ expressionWarnings H sourceBlock (ClassifyExpression H e),
              v.subCode ∉ illegalCharacterSubCodes := by
  have hlen : (groups 4).length < npos :=
    length_lt_npos_of_hasMismatchedCurlyBrackets _ _ hmis
  refine ⟨scanSpans (groups 4), getUriTemplateExpressions_eq_scanSpans _ hlen, ?_, ?_⟩
  · by_cases hsq : PathContainsSquareBrackets (groups 4) = true
    · simp [parse, isEmpty_eq_false_of_ne_nil uri hne, hmatch, hmis, hnest, hsq,
        getUriTemplateExpressions_eq_scanSpans _ hlen, processExpressions_eq, pushWarning,
        decomposed]
    · simp [parse, isEmpty_eq_false_of_ne_nil uri hne, hmatch, hmis, hnest, hsq,
        getUriTemplateExpressions_eq_scanSpans _ hlen, processExpressions_eq, decomposed]
  · intro e _ w hw hinv v hv
    exact expressionWarnings_exclusive H sourceBlock _ w v hw hinv hv

/-- The witness of C10: the path `/{id name}`, whose one expression `id name`
yields only the spaces warning. -/
theorem parse_expression_warnings_witness :
    "http://api.com/\x7bid name\x7d".toList ≠ []
      ∧ HasMismatchedCurlyBrackets
          (captureGroups "http".toList "api.com".toList "/\x7bid name\x7d".toList 4) = some false
      ∧ HasNestedCurlyBrackets
          (captureGroups "http".toList "api.com".toList "/\x7bid name\x7d".toList 4) = some false
      ∧ (∃ expressions,
          GetUriTemplateExpressions
              (captureGroups "http".toList "api.com".toList "/\x7bid name\x7d".toList 4)
            = some expressions
          ∧ parse (fun _ => some
                (captureGroups "http".toList "api.com".toList "/\x7bid name\x7d".toList))
              sampleHeader "http://api.com/\x7bid name\x7d".toList [(0, 23)] emptyResult
            = some (decomposed
                (captureGroups "http".toList "api.com".toList "/\x7bid name\x7d".toList)
                (emptyResult.report.warnings
                  ++ (if PathContainsSquareBrackets
                        (captureGroups "http".toList "api.com".toList
                          "/\x7bid name\x7d".toList 4) then
                        [{ message := "the URI template contains square brackets",
                           code := .URIWarning,
                           subCode := .SquareBracketWarningUriTemplateWarningSubCode,
                           location := some [(0, 23)] }]
                      else [])
                  ++ expressions.flatMap
                      (fun e => expressionWarnings sampleHeader [(0, 23)]
                        (ClassifyExpression sampleHeader e))))
          ∧ ∀ e ∈ expressions,
              ∀ w ∈ expressionWarnings sampleHeader [(0, 23)] (ClassifyExpression sampleHeader e),
                w.subCode = .InvalidCharactersWarningUriTemplateWarningSubCode →
                ∀ v ∈ expressionWarnings sampleHeader [(0, 23)]
                    (ClassifyExpression sampleHeader e),
                  v.subCode ∉ illegalCharacterSubCodes)
      ∧ sampleHeader.IsInvalidExpressionName
          (ClassifyExpression sampleHeader "id name".toList) = true
      ∧ parse (fun _ => some
            (captureGroups "http".toList "api.com".toList "/\x7bid name\x7d".toList))
          sampleHeader "http://api.com/\x7bid name\x7d".toList [(0, 23)] emptyResult
        = some { scheme := "http".toList, host := "api.com".toList,
                 path := "/\x7bid name\x7d".toList,
                 report := { warnings :=
                   [{ message := "URI template \x27id name\x27 contains spaces",
                      code := .URIWarning,
                      subCode := .ContainsSpacesWarningUriTemplateWarningSubCode,
                      location := some [(0, 23)] }] } } :=
  ⟨by decide, by decide, by decide,
    parse_expression_warnings _ sampleHeader _ [(0, 23)] emptyResult _ (by decide) rfl
      (by decide) (by decide),
    by decide, by decide⟩

/-- C13: on the path `{a{b}c}` it is not the case that
`HasNestedCurlyBrackets` returns false. -/
theorem hasNestedCurlyBrackets_inner_span_not_false :
    ¬ (HasNestedCurlyBrackets "\x7ba\x7bb\x7dc\x7d".toList = some false) := by
  decide

/-- C13, as amended: `HasNestedCurlyBrackets` returns true on the path
`{a{b}c}`, whose brace subsequence `{{}}` repeats `{` with no `}` in between:
the path is flagged as nested. -/
theorem hasNestedCurlyBrackets_inner_span :
    HasNestedCurlyBrackets "\x7ba\x7bb\x7dc\x7d".toList = some true
      ∧ curlySeq "\x7ba\x7bb\x7dc\x7d".toList = "\x7b\x7b\x7d\x7d".toList := by
  decide

/-- C14: `GetUriTemplateExpressions` evaluated on paths with a `{` that no `}`
follows: on `/}{abc`, which passes both validator checks, and on `{abc`, which
has no `}` at all, it returns the expression `abc`. -/
theorem getUriTemplateExpressions_without_close :
    HasMismatchedCurlyBrackets "/\x7d\x7babc".toList = some false
      ∧ HasNestedCurlyBrackets "/\x7d\x7babc".toList = some false
      ∧ GetUriTemplateExpressions "/\x7d\x7babc".toList = some ["abc".toList]
      ∧ '}' ∉ "\x7babc".toList
      ∧ GetUriTemplateExpressions "\x7babc".toList = some ["abc".toList] := by
  decide

/-- C15: when the path-style parameter predicate holds and none of the six
earlier predicates does, `ClassifyExpression` returns the path segment
expansion object built from the expression; and on no input does it return an
object of the path-style parameter form. -/
theorem classifyExpression_never_pathStyleParameter (H : Header) :
    (∀ e : Expression,
        H.IsExpressionType .Variable e = false →
        H.IsExpressionType .QueryString e = false →
        H.IsExpressionType .Fragment e = false →
        H.IsExpressionType .ReservedExpansion e = false →
        H.IsExpressionType .LabelExpansion e = false →
        H.IsExpressionType .PathSegmentExpansion e = false →
        H.IsExpressionType .PathStyleParameterExpansion e = true →
        ClassifyExpression H e = construct H .PathSegmentExpansion e
          ∧ ClassifyExpression H e ≠ construct H .PathStyleParameterExpansion e)
      ∧ ∀ e : Expression, (ClassifyExpression H e).form ≠ .PathStyleParameterExpansion := by
  constructor
  · intro e h1 h2 h3 h4 h5 h6 h7
    have heq : ClassifyExpression H e = construct H .PathSegmentExpansion e := by
      simp [ClassifyExpression, h1, h2, h3, h4, h5, h6, h7]
    refine ⟨heq, ?_⟩
    rw [heq]
    intro hc
    have := congrArg ClassifiedExpression.form hc
    simp [construct] at this
  · intro e
    unfold ClassifyExpression
    simp only [construct]
    repeat' split
    all_goals simp

/-- The witness of C15: the expression `;id`. -/
theorem classifyExpression_never_pathStyleParameter_witness :
    ClassifyExpression sampleHeader [';', 'i', 'd']
        = construct sampleHeader .PathSegmentExpansion [';', 'i', 'd']
      ∧ ClassifyExpression sampleHeader [';', 'i', 'd']
        ≠ construct sampleHeader .PathStyleParameterExpansion [';', 'i', 'd'] :=
  (classifyExpression_never_pathStyleParameter sampleHeader).1 [';', 'i', 'd']
    (by decide) (by decide) (by decide) (by decide) (by decide) (by decide) (by decide)

/-- The two outcomes of `ClassifyExpression`: some predicate holds and the
result is the object of one of the eight operator forms, or none holds and the
result is the undefined expression object. -/
theorem classifyExpression_cases (H : Header) (e : Expression) :
    (∃ form : Form, form ≠ .Undefined ∧ H.IsExpressionType form e = true
        ∧ ∃ form' : Form, form' ≠ .Undefined ∧ ClassifyExpression H e = construct H form' e)
      ∨ ((∀ form : Form, form ≠ .Undefined → H.IsExpressionType form e = false)
        ∧ ClassifyExpression H e = construct H .Undefined e) := by
  by_cases h1 : H.IsExpressionType .Variable e = true
  · exact Or.inl ⟨.Variable, by decide, h1, .Variable, by decide, by simp [ClassifyExpression, h1]⟩
  by_cases h2 : H.IsExpressionType .QueryString e = true
  · exact Or.inl ⟨.QueryString, by decide, h2, .QueryString, by decide, by simp [ClassifyExpression, h1, h2]⟩
  by_cases h3 : H.IsExpressionType .Fragment e = true
  · exact Or.inl ⟨.Fragment, by decide, h3, .Fragment, by decide, by simp [ClassifyExpression, h1, h2, h3]⟩
  by_cases h4 : H.IsExpressionType .ReservedExpansion e = true
  · exact Or.inl ⟨.ReservedExpansion, by decide, h4, .ReservedExpansion, by decide,
      by simp [ClassifyExpression, h1, h2, h3, h4]⟩
  by_cases h5 : H.IsExpressionType .LabelExpansion e = true
  · exact Or.inl ⟨.LabelExpansion, by decide, h5, .LabelExpansion, by decide,
      by simp [ClassifyExpression, h1, h2, h3, h4, h5]⟩
  by_cases h6 : H.IsExpressionType .PathSegmentExpansion e = true
  · exact Or.inl ⟨.PathSegmentExpansion, by decide, h6, .PathSegmentExpansion, by decide,
      by simp [ClassifyExpression, h1, h2, h3, h4, h5, h6]⟩
  by_cases h7 : H.IsExpressionType .PathStyleParameterExpansion e = true
  · exact Or.inl ⟨.PathStyleParameterExpansion, by decide, h7, .PathSegmentExpansion, by decide,
      by simp [ClassifyExpression, h1, h2, h3, h4, h5, h6, h7]⟩
  by_cases h8 : H.IsExpressionType .FormStyleQueryContinuation e = true
  · exact Or.inl ⟨.FormStyleQueryContinuation, by decide, h8, .FormStyleQueryContinuation, by decide,
      by simp [ClassifyExpression, h1, h2, h3, h4, h5, h6, h7, h8]⟩
  refine Or.inr ⟨?_, by simp [ClassifyExpression, h1, h2, h3, h4, h5, h6, h7, h8]⟩
  intro form hform
  cases form <;> simp_all

/-- C16: classification is total: `ClassifyExpression` returns the undefined
expression object exactly when none of the eight form predicates holds, and an
object of one of the eight operator forms exactly when some predicate holds. -/
theorem classifyExpression_undefined_iff (H : Header) (e : Expression) :
    (ClassifyExpression H e = construct H .Undefined e
        ↔ ∀ form : Form, form ≠ .Undefined → H.IsExpressionType form e = false)
      ∧ ((ClassifyExpression H e).form = .Undefined
        ↔ ∀ form : Form, form ≠ .Undefined → H.IsExpressionType form e = false)
      ∧ ((∃ form : Form, form ≠ .Undefined ∧ H.IsExpressionType form e = true)
        ↔ ∃ form : Form, form ≠ .Undefined
            ∧ ClassifyExpression H e = construct H form e) := by
  have hall : (∀ form : Form, form ≠ .Undefined → H.IsExpressionType form e = false)
      ↔ (H.IsExpressionType .Variable e = false ∧ H.IsExpressionType .QueryString e = false
        ∧ H.IsExpressionType .Fragment e = false
        ∧ H.IsExpressionType .ReservedExpansion e = false
        ∧ H.IsExpressionType .LabelExpansion e = false
        ∧ H.IsExpressionType .PathSegmentExpansion e = false
        ∧ H.IsExpressionType .PathStyleParameterExpansion e = false
        ∧ H.IsExpressionType .FormStyleQueryContinuation e = false) := by
    constructor
    · intro h
      exact ⟨h _ (by decide), h _ (by decide), h _ (by decide), h _ (by decide),
        h _ (by decide), h _ (by decide), h _ (by decide), h _ (by decide)⟩
    · rintro ⟨h1, h2, h3, h4, h5, h6, h7, h8⟩ form hform
      cases form <;> first | assumption | exact absurd rfl hform
  have hcases := classifyExpression_cases H e
  rcases hcases with ⟨form, hform, hp, heq⟩ | ⟨hnone, heq⟩
  · have hne : ClassifyExpression H e ≠ construct H .Undefined e := by
      obtain ⟨form', hform', heq'⟩ := heq
      rw [heq']
      intro hc
      exact hform' (by simpa [construct] using congrArg ClassifiedExpression.form hc)
    have hne2 : (ClassifyExpression H e).form ≠ .Undefined := by
      obtain ⟨form', hform', heq'⟩ := heq
      rw [heq']
      simpa [construct] using hform'
    have hnall : ¬ ∀ form : Form, form ≠ .Undefined → H.IsExpressionType form e = false := by
      intro h
      rw [h form hform] at hp
      exact Bool.noConfusion hp
    exact ⟨⟨fun h => absurd h hne, fun h => absurd h hnall⟩,
      ⟨fun h => absurd h hne2, fun h => absurd h hnall⟩,
      ⟨fun _ => heq, fun _ => ⟨form, hform, hp⟩⟩⟩
  · have hf : (ClassifyExpression H e).form = .Undefined := by rw [heq]; rfl
    refine ⟨⟨fun _ => hnone, fun _ => heq⟩, ⟨fun _ => hnone, fun _ => hf⟩, ?_, ?_⟩
    · rintro ⟨form, hform, hp⟩
      rw [hnone form hform] at hp
      exact Bool.noConfusion hp
    · rintro ⟨form, hform, heq'⟩
      rw [heq'] at hf
      exact absurd (by simpa [construct] using hf) hform

theorem find_zero_ne_npos_iff (s : List Char) (c : Char) (hlen : s.length < npos) :
    find s c 0 ≠ npos ↔ c ∈ s := by
  constructor
  · intro h
    by_contra hc
    exact h (by simpa [find] using findAux_of_not_mem c s 0 hc)
  · intro h
    obtain ⟨k, hk, hkl, -, -⟩ := findAux_of_mem c s 0 h
    have : find s c 0 = k := by simpa [find] using hk
    omega

theorem pathContainsSquareBrackets_iff (s : URITemplate) (hlen : s.length < npos) :
    PathContainsSquareBrackets s = true ↔ '[' ∈ s ∨ ']' ∈ s := by
  unfold PathContainsSquareBrackets
  rw [Bool.or_eq_true, bne_iff_ne, bne_iff_ne, find_zero_ne_npos_iff s _ hlen,
    find_zero_ne_npos_iff s _ hlen]

theorem expressionWarnings_subCode_ne_squareBracket (H : Header)
    (sourceBlock : CharactersRangeSet) (c : ClassifiedExpression) (w : Warning)
    (hw : w ∈ expressionWarnings H sourceBlock c) :
    w.subCode ≠ .SquareBracketWarningUriTemplateWarningSubCode := by
  unfold expressionWarnings at hw
  revert hw
  cases h0 : H.IsSupportedExpressionType c <;>
  cases h1 : H.ContainsSpaces c <;>
  cases h2 : H.ContainsHyphens c <;>
  cases h3 : H.ContainsAssignment c <;>
  cases h4 : H.IsInvalidExpressionName c <;>
  simp <;>
  aesop

theorem parse_accepted_of_some (RegexCapture : RegexCaptureFn) (H : Header)
    (uri : URITemplate) (sourceBlock : CharactersRangeSet) (result : ParsedURITemplate)
    (groups : Fin 5 → List Char) (expressions : Expressions)
    (hne : uri ≠ []) (hmatch : RegexCapture uri = some groups)
    (hmis : HasMismatchedCurlyBrackets (groups 4) = some false)
    (hnest : HasNestedCurlyBrackets (groups 4) = some false)
    (hex : GetUriTemplateExpressions (groups 4) = some expressions) :
    parse RegexCapture H uri sourceBlock result
      = some (decomposed groups (result.report.warnings
          ++ (if PathContainsSquareBrackets (groups 4) then [squareBracketWarning sourceBlock]
              else [])
          ++ expressions.flatMap
              (fun e => expressionWarnings H sourceBlock (ClassifyExpression H e)))) := by
  by_cases hsq : PathContainsSquareBrackets (groups 4) = true
  · simp [parse, isEmpty_eq_false_of_ne_nil uri hne, hmatch, hmis, hnest, hsq, hex,
      processExpressions_eq, pushWarning, decomposed, squareBracketWarning]
  · simp [parse, isEmpty_eq_false_of_ne_nil uri hne, hmatch, hmis, hnest, hsq, hex,
      processExpressions_eq, decomposed]

theorem parse_accepted_of_none (RegexCapture : RegexCaptureFn) (H : Header)
    (uri : URITemplate) (sourceBlock : CharactersRangeSet) (result : ParsedURITemplate)
    (groups : Fin 5 → List Char)
    (hne : uri ≠ []) (hmatch : RegexCapture uri = some groups)
    (hmis : HasMismatchedCurlyBrackets (groups 4) = some false)
    (hnest : HasNestedCurlyBrackets (groups 4) = some false)
    (hex : GetUriTemplateExpressions (groups 4) = none) :
    parse RegexCapture H uri sourceBlock result = none := by
  by_cases hsq : PathContainsSquareBrackets (groups 4) = true
  · simp [parse, isEmpty_eq_false_of_ne_nil uri hne, hmatch, hmis, hnest, hsq, hex,
      pushWarning]
  · simp [parse, isEmpty_eq_false_of_ne_nil uri hne, hmatch, hmis, hnest, hsq, hex]

/-- What `parse` returns after a successful decomposition whose path passes
both curly-brace checks. -/
theorem parse_accepted (RegexCapture : RegexCaptureFn) (H : Header)
    (uri : URITemplate) (sourceBlock : CharactersRangeSet) (result : ParsedURITemplate)
    (groups : Fin 5 → List Char)
    (hne : uri ≠ []) (hmatch : RegexCapture uri = some groups)
    (hlen : (groups 4).length < npos)
    (hmis : HasMismatchedCurlyBrackets (groups 4) = some false)
    (hnest : HasNestedCurlyBrackets (groups 4) = some false) :
    parse RegexCapture H uri sourceBlock result
      = some (decomposed groups (result.report.warnings
          ++ (if PathContainsSquareBrackets (groups 4) then [squareBracketWarning sourceBlock]
              else [])
          ++ (scanSpans (groups 4)).flatMap
              (fun e => expressionWarnings H sourceBlock (ClassifyExpression H e)))) := by
  by_cases hsq : PathContainsSquareBrackets (groups 4) = true
  · simp [parse, isEmpty_eq_false_of_ne_nil uri hne, hmatch, hmis, hnest, hsq,
      getUriTemplateExpressions_eq_scanSpans _ hlen, processExpressions_eq, pushWarning,
      decomposed, squareBracketWarning]
  · simp [parse, isEmpty_eq_false_of_ne_nil uri hne, hmatch, hmis, hnest, hsq,
      getUriTemplateExpressions_eq_scanSpans _ hlen, processExpressions_eq, decomposed]

/-- C11: when the decomposition succeeds with a path that passes both
curly-brace checks, `parse` appends the square-bracket warning exactly when the
path contains `[` or `]`, once and before the per-expression warnings (none of
which has the square-bracket subcode), and goes on to extract and check the
expressions; when the path has no `{` no expression is extracted and the
square-bracket warning is the only one that can be appended. -/
theorem parse_square_brackets (RegexCapture : RegexCaptureFn) (H : Header)
    (uri : URITemplate) (sourceBlock : CharactersRangeSet) (result : ParsedURITemplate)
    (groups : Fin 5 → List Char)
    (hne : uri ≠ []) (hmatch : RegexCapture uri = some groups)
    (hmis : HasMismatchedCurlyBrackets (groups 4) = some false)
    (hnest : HasNestedCurlyBrackets (groups 4) = some false) :
    ∃ expressions perExpression,
      GetUriTemplateExpressions (groups 4) = some expressions
      ∧ perExpression = expressions.flatMap
          (fun e => expressionWarnings H sourceBlock (ClassifyExpression H e))
      ∧ parse RegexCapture H uri sourceBlock result
        = some (decomposed groups (result.report.warnings
            ++ (if '[' ∈ groups 4 ∨ ']' ∈ groups 4 then [squareBracketWarning sourceBlock]
                else [])
            ++ perExpression))
      ∧ (∀ w ∈ perExpression, w.subCode ≠ .SquareBracketWarningUriTemplateWarningSubCode)
      ∧ ('{' ∉ groups 4 → expressions = [] ∧ perExpression = []) := by
  have hlen : (groups 4).length < npos :=
    length_lt_npos_of_hasMismatchedCurlyBrackets _ _ hmis
  refine ⟨scanSpans (groups 4), _, getUriTemplateExpressions_eq_scanSpans _ hlen, rfl,
    ?_, ?_, ?_⟩
  · rw [parse_accepted RegexCapture H uri sourceBlock result groups hne hmatch hlen hmis hnest]
    by_cases hsq : '[' ∈ groups 4 ∨ ']' ∈ groups 4
    · rw [if_pos ((pathContainsSquareBrackets_iff _ hlen).mpr hsq), if_pos hsq]
    · have hsq' : ¬ PathContainsSquareBrackets (groups 4) = true :=
        fun h => hsq ((pathContainsSquareBrackets_iff _ hlen).mp h)
      rw [if_neg hsq', if_neg hsq]
  · intro w hw
    obtain ⟨e, -, hwe⟩ := List.mem_flatMap.mp hw
    exact expressionWarnings_subCode_ne_squareBracket H sourceBlock _ w hwe
  · intro hopen
    simp [scanSpans_of_not_mem _ hopen]

/-- The witness of C11: the path `/[id]` yields exactly one warning. -/
theorem parse_square_brackets_witness :
    "http://api.com/[id]".toList ≠ []
      ∧ HasMismatchedCurlyBrackets
          (captureGroups "http".toList "api.com".toList "/[id]".toList 4) = some false
      ∧ HasNestedCurlyBrackets
          (captureGroups "http".toList "api.com".toList "/[id]".toList 4) = some false
      ∧ (∃ expressions perExpression,
          GetUriTemplateExpressions
              (captureGroups "http".toList "api.com".toList "/[id]".toList 4)
            = some expressions
          ∧ perExpression = expressions.flatMap
              (fun e => expressionWarnings sampleHeader [(0, 19)]
                (ClassifyExpression sampleHeader e))
          ∧ parse (fun _ => some (captureGroups "http".toList "api.com".toList "/[id]".toList))
              sampleHeader "http://api.com/[id]".toList [(0, 19)] emptyResult
            = some (decomposed (captureGroups "http".toList "api.com".toList "/[id]".toList)
                (emptyResult.report.warnings
                  ++ (if '[' ∈ captureGroups "http".toList "api.com".toList "/[id]".toList 4
                        ∨ ']' ∈ captureGroups "http".toList "api.com".toList "/[id]".toList 4
                      then [squareBracketWarning [(0, 19)]] else [])
                  ++ perExpression))
          ∧ (∀ w ∈ perExpression,
              w.subCode ≠ .SquareBracketWarningUriTemplateWarningSubCode)
          ∧ ('{' ∉ captureGroups "http".toList "api.com".toList "/[id]".toList 4
              → expressions = [] ∧ perExpression = []))
      ∧ parse (fun _ => some (captureGroups "http".toList "api.com".toList "/[id]".toList))
          sampleHeader "http://api.com/[id]".toList [(0, 19)] emptyResult
        = some { scheme := "http".toList, host := "api.com".toList, path := "/[id]".toList,
                 report := { warnings :=
                   [{ message := "the URI template contains square brackets",
                      code := .URIWarning,
                      subCode := .SquareBracketWarningUriTemplateWarningSubCode,
                      location := some [(0, 19)] }] } } :=
  ⟨by decide, by decide, by decide,
    parse_square_brackets _ sampleHeader _ [(0, 19)] emptyResult _ (by decide) rfl
      (by decide) (by decide),
    by decide⟩

theorem find_cases (s : List Char) (c : Char) (pos : Nat) :
    (c ∈ s.drop pos ∧ pos ≤ find s c pos ∧ find s c pos < s.length)
      ∨ (c ∉ s.drop pos ∧ find s c pos = npos) := by
  by_cases h : c ∈ s.drop pos
  · left
    obtain ⟨k, hk, hkl, -, -⟩ := findAux_of_mem c (s.drop pos) pos h
    have hf : find s c pos = pos + k := hk
    have : k < s.length - pos := by simpa using hkl
    exact ⟨h, by omega, by omega⟩
  · right
    exact ⟨h, findAux_of_not_mem _ _ _ h⟩

/-- C17: `GetUriTemplateExpressions` terminates on every path: with fuel for
one more iteration than the path has characters the loop returns, and more
fuel gives the same sequence. In an iteration that runs from a start position
below the path length, either a `{` is found at or after the start position
and below the path length, and the start position moves past it; or none is
found, the `}` search yields `npos` too, the start position wraps to 0 and the
loop exits at the next test. -/
theorem getUriTemplateExpressions_terminates (path : URITemplate)
    (hlen : path.length < npos) :
    (∃ expressions, GetUriTemplateExpressions path = some expressions
        ∧ ∀ fuel, path.length + 1 ≤ fuel → extractLoop path fuel 0 0 [] = some expressions)
      ∧ ∀ startPos, startPos < path.length →
          (find path '{' startPos ≠ npos
              ∧ find path '{' startPos < path.length
              ∧ startPos < (find path '{' startPos + 1) % 2 ^ 64
              ∧ (find path '{' startPos + 1) % 2 ^ 64 ≤ path.length)
            ∨ (find path '{' startPos = npos
              ∧ find path '}' (find path '{' startPos) = npos
              ∧ (find path '{' startPos + 1) % 2 ^ 64 = 0
              ∧ ∀ fuel expressions,
                  extractLoop path (fuel + 1) 0 npos expressions = some expressions) := by
  constructor
  · refine ⟨scanSpans path, getUriTemplateExpressions_eq_scanSpans path hlen, ?_⟩
    intro fuel hfuel
    rw [extractLoop_eq path hlen fuel 0 0 [] (Nat.zero_le _) (by decide) (by omega)]
    simp
  · intro startPos hstart
    rcases find_cases path '{' startPos with ⟨-, hle, hlt⟩ | ⟨-, hnone⟩
    · left
      have hmod : (find path '{' startPos + 1) % 2 ^ 64 = find path '{' startPos + 1 := by
        apply Nat.mod_eq_of_lt
        rw [npos_eq] at hlen
        omega
      rw [hmod]
      exact ⟨by omega, hlt, by omega, by omega⟩
    · right
      rw [hnone]
      refine ⟨rfl, ?_, by decide, ?_⟩
      · have : path.drop npos = [] := List.drop_eq_nil_of_le (by omega)
        simp [find, this, findAux]
      · intro fuel expressions
        simp [extractLoop]

/-- The witness of C17: the path `/{id}x`, on which the last iteration finds no
`{`. -/
theorem getUriTemplateExpressions_terminates_witness :
    "/\x7bid\x7dx".toList.length < npos
      ∧ GetUriTemplateExpressions "/\x7bid\x7dx".toList = some ["id".toList]
      ∧ find "/\x7bid\x7dx".toList '{' 0 = 1
      ∧ find "/\x7bid\x7dx".toList '{' 2 = npos
      ∧ ((∃ expressions, GetUriTemplateExpressions "/\x7bid\x7dx".toList = some expressions
          ∧ ∀ fuel, "/\x7bid\x7dx".toList.length + 1 ≤ fuel →
              extractLoop "/\x7bid\x7dx".toList fuel 0 0 [] = some expressions)
        ∧ ∀ startPos, startPos < "/\x7bid\x7dx".toList.length →
            (find "/\x7bid\x7dx".toList '{' startPos ≠ npos
                ∧ find "/\x7bid\x7dx".toList '{' startPos < "/\x7bid\x7dx".toList.length
                ∧ startPos < (find "/\x7bid\x7dx".toList '{' startPos + 1) % 2 ^ 64
                ∧ (find "/\x7bid\x7dx".toList '{' startPos + 1) % 2 ^ 64
                    ≤ "/\x7bid\x7dx".toList.length)
              ∨ (find "/\x7bid\x7dx".toList '{' startPos = npos
                ∧ find "/\x7bid\x7dx".toList '}' (find "/\x7bid\x7dx".toList '{' startPos)
                    = npos
                ∧ (find "/\x7bid\x7dx".toList '{' startPos + 1) % 2 ^ 64 = 0
                ∧ ∀ fuel expressions,
                    extractLoop "/\x7bid\x7dx".toList (fuel + 1) 0 npos expressions
                      = some expressions)) :=
  ⟨by decide, by decide, by decide, by decide,
    getUriTemplateExpressions_terminates _ (by decide)⟩

theorem alternates_of_nestedScan (p : List Char) :
    (nestedScan p '}' = false → p.count '{' = p.count '}' → alternates false p = true)
      ∧ (nestedScan p '{' = false → p.count '{' + 1 = p.count '}' →
          alternates true p = true) := by
  induction p with
  | nil => simp [alternates]
  | cons x rest ih =>
    have hne : ¬ ('{' : Char) = '}' := by decide
    have hne' : ¬ ('}' : Char) = '{' := by decide
    by_cases h1 : x = '{'
    · subst h1
      constructor
      · intro hn hc
        have hn' : nestedScan rest '{' = false := by
          simpa [nestedScan, nestedOpen, nestedClose, hne, hne'] using hn
        have hc' : rest.count '{' + 1 = rest.count '}' := by
          simpa [List.count_cons, hne] using hc
        simpa [alternates] using ih.2 hn' hc'
      · intro hn
        simp [nestedScan, nestedOpen] at hn
    · by_cases h2 : x = '}'
      · subst h2
        constructor
        · intro hn
          simp [nestedScan, nestedOpen, nestedClose, hne'] at hn
        · intro hn hc
          have hn' : nestedScan rest '}' = false := by
            simpa [nestedScan, nestedOpen, nestedClose, hne, hne'] using hn
          have hc' : rest.count '{' = rest.count '}' := by
            simpa [List.count_cons, hne'] using hc
          simpa [alternates, hne'] using ih.1 hn' hc'
      · have h1' : ¬ ('{' = x) := fun h => h1 h.symm
        have h2' : ¬ ('}' = x) := fun h => h2 h.symm
        constructor
        · intro hn hc
          have hn' : nestedScan rest '}' = false := by
            simpa [nestedScan, nestedOpen, nestedClose, h1, h2] using hn
          have hc' : rest.count '{' = rest.count '}' := by
            simpa [List.count_cons, h1, h2, h1', h2'] using hc
          simpa [alternates, h1, h2] using ih.1 hn' hc'
        · intro hn hc
          have hn' : nestedScan rest '{' = false := by
            simpa [nestedScan, nestedOpen, nestedClose, h1, h2] using hn
          have hc' : rest.count '{' + 1 = rest.count '}' := by
            simpa [List.count_cons, h1, h2, h1', h2'] using hc
          simpa [alternates, h1, h2] using ih.2 hn' hc'

/-- A path that passes both validator checks and whose first brace is not `}`
has alternating braces. -/
theorem alternates_of_validated (p : URITemplate)
    (hmis : HasMismatchedCurlyBrackets p = some false)
    (hnest : HasNestedCurlyBrackets p = some false)
    (hfirst : (curlySeq p).head? ≠ some '}') : alternates false p = true := by
  obtain ⟨hlen, hb⟩ := of_hasMismatchedCurlyBrackets_eq_some p false hmis
  have hcount : p.count '{' = p.count '}' := by
    have h := hb.symm
    rw [bne_eq_false_iff_eq] at h
    exact h
  have hscan : nestedScan p ' ' = false := by
    rw [hasNestedCurlyBrackets_of_short p hlen] at hnest
    exact Option.some.inj hnest
  have hadj : ¬ AdjacentEqual (curlySeq p) := by
    intro h
    have : nestedScan p ' ' = true := (nestedScan_iff_adjacent p ' ').mpr (Or.inr h)
    rw [hscan] at this
    exact Bool.noConfusion this
  have hloop : nestedScan p '}' = false := by
    cases hv : nestedScan p '}' with
    | false => rfl
    | true =>
      rcases (nestedScan_iff_adjacent p '}').mp hv with ⟨-, h⟩ | h
      · exact absurd h hfirst
      · exact absurd h hadj
  exact (alternates_of_nestedScan p).1 hloop hcount

theorem curlySeq_of_alternates (p : List Char) :
    (alternates false p = true →
        curlySeq p = (List.replicate (p.count '{') ['{', '}']).flatten)
      ∧ (alternates true p = true →
        curlySeq p = '}' :: (List.replicate (p.count '{') ['{', '}']).flatten) := by
  induction p with
  | nil => simp [alternates, curlySeq]
  | cons x rest ih =>
    rw [curlySeq_cons]
    by_cases h1 : x = '{'
    · subst h1
      constructor
      · intro h
        have h' : alternates true rest = true := by simpa [alternates] using h
        simp [ih.2 h', List.replicate_succ]
      · intro h
        simp [alternates] at h
    · by_cases h2 : x = '}'
      · subst h2
        have hne' : ¬ ('}' : Char) = '{' := by decide
        constructor
        · intro h
          simp [alternates, hne'] at h
        · intro h
          have h' : alternates false rest = true := by simpa [alternates, hne'] using h
          simp [ih.1 h', List.count_cons, hne']
      · have h1' : ¬ ('{' = x) := fun h => h1 h.symm
        constructor
        · intro h
          have h' : alternates false rest = true := by simpa [alternates, h1, h2] using h
          simp [ih.1 h', h1, h2, h1', List.count_cons]
        · intro h
          have h' : alternates true rest = true := by simpa [alternates, h1, h2] using h
          simp [ih.2 h', h1, h2, h1', List.count_cons]

theorem filter_range'_succ (s : List Char) (c : Char) (n d : Nat) :
    (List.range' n (d + 1)).filter (fun i => s[i]? == some c)
      = (if s[n]? = some c then [n] else [])
        ++ (List.range' (n + 1) d).filter (fun i => s[i]? == some c) := by
  rw [List.range'_succ, List.filter_cons]
  by_cases h : s[n]? = some c
  · simp [h]
  · simp [h]

/-- The pairing of the `{` and `}` positions of a path with alternating
braces, read from position `n` on. -/
theorem closedBy_of_alternates (s : List Char) :
    ∀ d n : Nat, n + d = s.length →
      (alternates false (s.drop n) = true →
        List.Forall₂ (ClosedBy s)
          ((List.range' n d).filter (fun i => s[i]? == some '{'))
          ((List.range' n d).filter (fun i => s[i]? == some '}')))
      ∧ (alternates true (s.drop n) = true →
        ∃ j cs, (List.range' n d).filter (fun i => s[i]? == some '}') = j :: cs
          ∧ n ≤ j ∧ s[j]? = some '}'
          ∧ (∀ k : Nat, n ≤ k → k < j → s[k]? ≠ some '{' ∧ s[k]? ≠ some '}')
          ∧ List.Forall₂ (ClosedBy s)
              ((List.range' n d).filter (fun i => s[i]? == some '{')) cs) := by
  intro d
  induction d with
  | zero =>
    intro n hn
    have : s.drop n = [] := List.drop_eq_nil_of_le (by omega)
    simp [this, alternates]
  | succ d ih =>
    intro n hn
    have hlt : n < s.length := by omega
    have hget : s[n]? = some s[n] := List.getElem?_eq_getElem hlt
    have hne : ¬ ('{' : Char) = '}' := by decide
    have hne' : ¬ ('}' : Char) = '{' := by decide
    obtain ⟨ihout, ihin⟩ := ih (n + 1) (by omega)
    rw [List.drop_eq_getElem_cons hlt, filter_range'_succ, filter_range'_succ]
    by_cases h1 : s[n] = '{'
    · have hg : s[n]? = some '{' := by rw [hget, h1]
      constructor
      · intro h
        have h' : alternates true (s.drop (n + 1)) = true := by
          simpa [alternates, h1] using h
        obtain ⟨j, cs, hcs, hj, hjc, hbetween, hall⟩ := ihin h'
        simp only [hg, if_true, Option.some.injEq, hne, if_false, List.nil_append,
          List.singleton_append, hcs]
        refine List.Forall₂.cons ⟨by omega, hjc, ?_⟩ hall
        intro k hk hkj
        exact hbetween k (by omega) hkj
      · intro h
        simp [alternates, h1] at h
    · by_cases h2 : s[n] = '}'
      · have hg : s[n]? = some '}' := by rw [hget, h2]
        constructor
        · intro h
          simp [alternates, h2, hne'] at h
        · intro h
          have h' : alternates false (s.drop (n + 1)) = true := by
            simpa [alternates, h2, hne'] using h
          refine ⟨n, (List.range' (n + 1) d).filter (fun i => s[i]? == some '}'), ?_,
            le_refl n, hg, ?_, ?_⟩
          · simp only [hg, if_true, List.singleton_append]
          · intro k hk hkn
            omega
          · simp only [hg, Option.some.injEq, hne', if_false, List.nil_append]
            exact ihout h'
      · have hg1 : ¬ s[n]? = some '{' := by
          rw [hget]; exact fun e => h1 (Option.some.inj e)
        have hg2 : ¬ s[n]? = some '}' := by
          rw [hget]; exact fun e => h2 (Option.some.inj e)
        constructor
        · intro h
          have h' : alternates false (s.drop (n + 1)) = true := by
            simpa [alternates, h1, h2] using h
          simp only [hg1, hg2, if_false, List.nil_append]
          exact ihout h'
        · intro h
          have h' : alternates true (s.drop (n + 1)) = true := by
            simpa [alternates, h1, h2] using h
          obtain ⟨j, cs, hcs, hj, hjc, hbetween, hall⟩ := ihin h'
          simp only [hg1, hg2, if_false, List.nil_append]
          refine ⟨j, cs, hcs, by omega, hjc, ?_, hall⟩
          intro k hk hkj
          by_cases hkn : k = n
          · subst hkn
            exact ⟨hg1, hg2⟩
          · exact hbetween k (by omega) hkj

theorem takeWhile_eq_take_of_first (c : Char) (l : List Char) (m : Nat)
    (hm : l[m]? = some c) (hbefore : ∀ k : Nat, k < m → l[k]? ≠ some c) :
    l.takeWhile (fun x => x != c) = l.take m := by
  induction l generalizing m with
  | nil => simp at hm
  | cons x rest ih =>
    cases m with
    | zero =>
      have hx : x = c := by simpa using hm
      simp [hx]
    | succ m =>
      have hx : ¬ x = c := by
        have := hbefore 0 (Nat.succ_pos m)
        simpa using this
      have hrec := ih m (by simpa using hm)
        (fun k hk => by simpa using hbefore (k + 1) (by omega))
      simp [List.takeWhile_cons, hx, hrec]

theorem textToClose_of_closedBy (s : List Char) (i j : Nat) (h : ClosedBy s i j) :
    textToClose s i = textBetween s i j
      ∧ ∀ x ∈ textBetween s i j, x ≠ '{' ∧ x ≠ '}' := by
  obtain ⟨hij, hj, hbetween⟩ := h
  have hidx : i + 1 + (j - (i + 1)) = j := by omega
  constructor
  · unfold textToClose textBetween
    apply takeWhile_eq_take_of_first
    · rw [List.getElem?_drop, hidx, hj]
    · intro k hk
      rw [List.getElem?_drop]
      exact (hbetween (i + 1 + k) (by omega) (by omega)).2
  · intro x hx
    unfold textBetween at hx
    obtain ⟨k, hk⟩ := List.mem_iff_getElem?.mp hx
    have hkm : k < j - (i + 1) := by
      by_contra hge
      rw [List.getElem?_take_eq_none (by omega)] at hk
      exact Option.noConfusion hk
    rw [List.getElem?_take_of_lt hkm, List.getElem?_drop] at hk
    have hb := hbetween (i + 1 + k) (by omega) (by omega)
    rw [hk] at hb
    exact ⟨fun e => hb.1 (by rw [e]), fun e => hb.2 (by rw [e])⟩

theorem map_eq_zipWith_of_closedBy (s : List Char) (opens closes : List Nat)
    (h : List.Forall₂ (ClosedBy s) opens closes) :
    opens.map (textToClose s) = List.zipWith (textBetween s) opens closes
      ∧ List.Forall₂ (fun i j => i < j) opens closes
      ∧ (∀ i ∈ opens, ∃ j, ClosedBy s i j)
      ∧ ∀ e ∈ List.zipWith (textBetween s) opens closes, '{' ∉ e ∧ '}' ∉ e := by
  induction h with
  | nil => simp
  | cons hab _ ih =>
    obtain ⟨ih1, ih2, ih3, ih4⟩ := ih
    obtain ⟨heq, hno⟩ := textToClose_of_closedBy s _ _ hab
    refine ⟨by simp [heq, ih1], List.Forall₂.cons hab.1 ih2, ?_, ?_⟩
    · intro i hi
      rcases List.mem_cons.mp hi with rfl | hi
      · exact ⟨_, hab⟩
      · exact ih3 i hi
    · intro e he
      rw [List.zipWith_cons_cons] at he
      rcases List.mem_cons.mp he with rfl | he
      · exact ⟨fun hm => (hno _ hm).1 rfl, fun hm => (hno _ hm).2 rfl⟩
      · exact ih4 e he

/-- C18: on a path that passes both validator checks and whose first curly
brace, if any, is `{`, the braces alternate `{`, `}`, `{`, `}`, ... and end in
`}`, and `GetUriTemplateExpressions` returns as many expressions as the path
has `{` characters, the k-th being the text between the k-th `{` and the k-th
`}`, none of which contains a curly brace. -/
theorem getUriTemplateExpressions_of_validated (path : URITemplate)
    (hlen : path.length < npos)
    (hmis : HasMismatchedCurlyBrackets path = some false)
    (hnest : HasNestedCurlyBrackets path = some false)
    (hfirst : (curlySeq path).head? ≠ some '}') :
    curlySeq path = (List.replicate (path.count '{') ['{', '}']).flatten
      ∧ ∃ expressions, GetUriTemplateExpressions path = some expressions
        ∧ expressions.length = path.count '{'
        ∧ (openPositions path).length = path.count '{'
        ∧ (closePositions path).length = path.count '{'
        ∧ List.Forall₂ (fun i j => i < j) (openPositions path) (closePositions path)
        ∧ expressions
            = List.zipWith (textBetween path) (openPositions path) (closePositions path)
        ∧ ∀ e ∈ expressions, '{' ∉ e ∧ '}' ∉ e := by
  have halt := alternates_of_validated path hmis hnest hfirst
  have hpair : List.Forall₂ (ClosedBy path) (openPositions path) (closePositions path) := by
    have := (closedBy_of_alternates path path.length 0 (by omega)).1 (by simpa using halt)
    rw [← List.range_eq_range'] at this
    exact this
  obtain ⟨hmap, hlt, hclosed, hno⟩ := map_eq_zipWith_of_closedBy path _ _ hpair
  have hopen : (openPositions path).length = path.count '{' := by
    have := length_filter_open path path.length 0 (by omega)
    rw [← List.range_eq_range'] at this
    simpa [openPositions] using this
  have hevery : EveryOpenIsClosed path := by
    intro i hi hget
    have hmem : i ∈ openPositions path := by
      simp [openPositions, List.mem_filter, hi, hget]
    obtain ⟨j, hij, hj, -⟩ := hclosed i hmem
    have hjl : j < path.length := by
      by_contra hge
      rw [List.getElem?_eq_none (by omega)] at hj
      exact Option.noConfusion hj
    exact ⟨j, hjl, hij, hj⟩
  have hscan : scanSpans path = (openPositions path).map (textToClose path) := by
    have := scanSpans_drop_eq_map path hevery path.length 0 (by omega)
    rw [← List.range_eq_range'] at this
    simpa [openPositions] using this
  refine ⟨(curlySeq_of_alternates path).1 halt, scanSpans path,
    getUriTemplateExpressions_eq_scanSpans path hlen, ?_, hopen, ?_, hlt, ?_, ?_⟩
  · rw [hscan, List.length_map, hopen]
  · rw [← hpair.length_eq, hopen]
  · rw [hscan, hmap]
  · rw [hscan, hmap]
    exact hno

/-- The witness of C18: the path `/{id}/x{name}`. -/
theorem getUriTemplateExpressions_of_validated_witness :
    "/\x7bid\x7d/x\x7bname\x7d".toList.length < npos
      ∧ HasMismatchedCurlyBrackets "/\x7bid\x7d/x\x7bname\x7d".toList = some false
      ∧ HasNestedCurlyBrackets "/\x7bid\x7d/x\x7bname\x7d".toList = some false
      ∧ (curlySeq "/\x7bid\x7d/x\x7bname\x7d".toList).head? ≠ some '}'
      ∧ (curlySeq "/\x7bid\x7d/x\x7bname\x7d".toList
          = (List.replicate ("/\x7bid\x7d/x\x7bname\x7d".toList.count '{')
              ['{', '}']).flatten
        ∧ ∃ expressions,
          GetUriTemplateExpressions "/\x7bid\x7d/x\x7bname\x7d".toList = some expressions
          ∧ expressions.length = "/\x7bid\x7d/x\x7bname\x7d".toList.count '{'
          ∧ (openPositions "/\x7bid\x7d/x\x7bname\x7d".toList).length
              = "/\x7bid\x7d/x\x7bname\x7d".toList.count '{'
          ∧ (closePositions "/\x7bid\x7d/x\x7bname\x7d".toList).length
              = "/\x7bid\x7d/x\x7bname\x7d".toList.count '{'
          ∧ List.Forall₂ (fun i j => i < j)
              (openPositions "/\x7bid\x7d/x\x7bname\x7d".toList)
              (closePositions "/\x7bid\x7d/x\x7bname\x7d".toList)
          ∧ expressions
              = List.zipWith (textBetween "/\x7bid\x7d/x\x7bname\x7d".toList)
                  (openPositions "/\x7bid\x7d/x\x7bname\x7d".toList)
                  (closePositions "/\x7bid\x7d/x\x7bname\x7d".toList)
          ∧ ∀ e ∈ expressions, '{' ∉ e ∧ '}' ∉ e)
      ∧ GetUriTemplateExpressions "/\x7bid\x7d/x\x7bname\x7d".toList
          = some ["id".toList, "name".toList]
      ∧ openPositions "/\x7bid\x7d/x\x7bname\x7d".toList = [1, 7]
      ∧ closePositions "/\x7bid\x7d/x\x7bname\x7d".toList = [4, 12] :=
  ⟨by decide, by decide, by decide, by decide,
    getUriTemplateExpressions_of_validated _ (by decide) (by decide) (by decide) (by decide),
    by decide, by decide, by decide⟩

theorem step_eq_some (c lb lb' : Char)
    (h : (nestedOpen c lb).bind (nestedClose c) = some lb') :
    lb' = if c = '{' ∨ c = '}' then c else lb := by
  have hne : ¬ ('{' : Char) = '}' := by decide
  have hne' : ¬ ('}' : Char) = '{' := by decide
  by_cases h1 : c = '{'
  · subst h1
    by_cases h2 : lb = '{'
    · simp [nestedOpen, h2] at h
    · simp [nestedOpen, nestedClose, h2, hne] at h
      simp [← h]
  · by_cases h3 : c = '}'
    · subst h3
      by_cases h4 : lb = '}'
      · simp [nestedOpen, nestedClose, h4, hne'] at h
      · simp [nestedOpen, nestedClose, h4, hne'] at h
        simp [← h]
    · simp [nestedOpen, nestedClose, h1, h3] at h
      simp [h1, h3, h]

theorem roundScan_eq_some (w : List Char) :
    ∀ lb lb' : Char, roundScan w lb = some lb' → lb' = lastBrace w lb := by
  induction w with
  | nil => intro lb lb' h; simpa [roundScan, lastBrace] using h.symm
  | cons c rest ih =>
    intro lb lb' h
    rw [roundScan] at h
    cases hstep : (nestedOpen c lb).bind (nestedClose c) with
    | none => rw [hstep] at h; exact Option.noConfusion h
    | some lb1 =>
      rw [hstep] at h
      rw [lastBrace, ← step_eq_some c lb lb1 hstep]
      exact ih lb1 lb' h

theorem lastBrace_cases (w : List Char) :
    (∀ lb, lastBrace w lb = lb) ∨ ∃ b, ∀ lb, lastBrace w lb = b := by
  induction w with
  | nil => exact Or.inl (fun _ => rfl)
  | cons c rest ih =>
    by_cases hc : c = '{' ∨ c = '}'
    · exact Or.inr ⟨lastBrace rest c, fun lb => by simp [lastBrace, hc]⟩
    · rcases ih with h | ⟨b, h⟩
      · exact Or.inl (fun lb => by simp [lastBrace, hc, h])
      · exact Or.inr ⟨b, fun lb => by simp [lastBrace, hc, h]⟩

theorem lastBrace_idem (w : List Char) (lb : Char) :
    lastBrace w (lastBrace w lb) = lastBrace w lb := by
  rcases lastBrace_cases w with h | ⟨b, h⟩
  · rw [h, h]
  · rw [h, h]

/-- A `break` within the rest of a round of index values is reached when the
fuel covers the rest of the round. -/
theorem nestedLoop_of_round_break (s : List Char) (hlong : 2 ^ 32 ≤ s.length) :
    ∀ (k i fuel : Nat) (lb : Char), i + k = 2 ^ 32 → k ≤ fuel →
      roundScan ((s.drop i).take k) lb = none → nestedLoop s fuel i lb = some true := by
  intro k
  induction k with
  | zero => intro i fuel lb _ _ h; simp [roundScan] at h
  | succ k ih =>
    intro i fuel lb hi hf h
    have hlt : i < s.length := by omega
    obtain ⟨fuel, rfl⟩ : ∃ f, fuel = f + 1 := ⟨fuel - 1, by omega⟩
    rw [List.drop_eq_getElem_cons hlt, List.take_succ_cons, roundScan] at h
    rw [nestedLoop, dif_pos hlt]
    cases hstep : (nestedOpen s[i] lb).bind (nestedClose s[i]) with
    | none => rfl
    | some lb' =>
      rw [hstep] at h
      cases k with
      | zero => simp [roundScan] at h
      | succ k =>
        have hmod : (i + 1) % 2 ^ 32 = i + 1 := Nat.mod_eq_of_lt (by omega)
        simp only [hmod]
        exact ih (i + 1) fuel lb' (by omega) (by omega) h

/-- A round of index values without a `break` brings the loop back to index 0
with the last bracket of the round. -/
theorem nestedLoop_of_round (s : List Char) (hlong : 2 ^ 32 ≤ s.length) :
    ∀ (k i fuel : Nat) (lb lb' : Char), i + k = 2 ^ 32 → 1 ≤ k →
      roundScan ((s.drop i).take k) lb = some lb' →
      nestedLoop s (k + fuel) i lb = nestedLoop s fuel 0 lb' := by
  intro k
  induction k with
  | zero => intro i fuel lb lb' _ hk; omega
  | succ k ih =>
    intro i fuel lb lb' hi _ h
    have hlt : i < s.length := by omega
    have hf : k + 1 + fuel = (k + fuel) + 1 := by omega
    rw [List.drop_eq_getElem_cons hlt, List.take_succ_cons, roundScan] at h
    rw [hf, nestedLoop, dif_pos hlt]
    cases hstep : (nestedOpen s[i] lb).bind (nestedClose s[i]) with
    | none => rw [hstep] at h; exact Option.noConfusion h
    | some lb1 =>
      rw [hstep] at h
      cases k with
      | zero =>
        have hl : lb1 = lb' := by simpa [roundScan] using h
        have hmod : (i + 1) % 2 ^ 32 = 0 := by
          have : i + 1 = 2 ^ 32 := by omega
          rw [this, Nat.mod_self]
        simp only [hmod, Nat.zero_add, hl]
      | succ k =>
        have hmod : (i + 1) % 2 ^ 32 = i + 1 := Nat.mod_eq_of_lt (by omega)
        simp only [hmod]
        exact ih (i + 1) fuel lb1 lb' (by omega) (by omega) h

/-- Fuel for less than the rest of a round without a `break` is used up inside
the round. -/
theorem nestedLoop_of_partial_round (s : List Char) (hlong : 2 ^ 32 ≤ s.length) :
    ∀ (fuel k i : Nat) (lb : Char), i + k = 2 ^ 32 → fuel ≤ k →
      roundScan ((s.drop i).take k) lb ≠ none → nestedLoop s fuel i lb = none := by
  intro fuel
  induction fuel with
  | zero => intro k i lb _ _ _; rfl
  | succ fuel ih =>
    intro k i lb hi hf h
    obtain ⟨k, rfl⟩ : ∃ j, k = j + 1 := ⟨k - 1, by omega⟩
    have hlt : i < s.length := by omega
    rw [List.drop_eq_getElem_cons hlt, List.take_succ_cons, roundScan] at h
    rw [nestedLoop, dif_pos hlt]
    cases hstep : (nestedOpen s[i] lb).bind (nestedClose s[i]) with
    | none => rw [hstep] at h; exact absurd rfl h
    | some lb1 =>
      rw [hstep] at h
      cases fuel with
      | zero => rfl
      | succ fuel =>
        have hmod : (i + 1) % 2 ^ 32 = i + 1 := Nat.mod_eq_of_lt (by omega)
        simp only [hmod]
        exact ih k (i + 1) lb1 (by omega) (by omega) h

/-- Once a round without a `break` ends with the last bracket it started with,
the loop never leaves: whatever the fuel, there is no value. -/
theorem nestedLoop_of_fixed_round (s : List Char) (hlong : 2 ^ 32 ≤ s.length) (lb : Char)
    (hfix : roundScan (s.take (2 ^ 32)) lb = some lb) :
    ∀ fuel : Nat, nestedLoop s fuel 0 lb = none := by
  intro fuel
  induction fuel using Nat.strong_induction_on with
  | _ fuel ih =>
    by_cases hf : fuel ≤ 2 ^ 32
    · apply nestedLoop_of_partial_round s hlong fuel (2 ^ 32) 0 lb (by omega) hf
      rw [List.drop_zero, hfix]
      exact fun h => Option.noConfusion h
    · have hsplit : fuel = 2 ^ 32 + (fuel - 2 ^ 32) := by omega
      rw [hsplit, nestedLoop_of_round s hlong (2 ^ 32) 0 (fuel - 2 ^ 32) lb lb (by omega)
        (by norm_num) (by rw [List.drop_zero]; exact hfix)]
      exact ih _ (by omega)

/-- The fuel of `HasNestedCurlyBrackets` decides the loop: more fuel gives the
same answer, so `none` stands for a run that never returns. -/
theorem nestedLoop_fuel_adequate (s : URITemplate) (extra : Nat) :
    nestedLoop s (s.length + 2 ^ 32 + 1 + extra) 0 ' ' = HasNestedCurlyBrackets s := by
  by_cases hshort : s.length < 2 ^ 32
  · rw [hasNestedCurlyBrackets_of_short s hshort,
      nestedLoop_eq_scan s hshort _ 0 ' ' (Nat.zero_le _) (by omega)]
    simp
  · have hlong : 2 ^ 32 ≤ s.length := by omega
    unfold HasNestedCurlyBrackets
    cases h0 : roundScan (s.take (2 ^ 32)) ' ' with
    | none =>
      have hb : roundScan ((s.drop 0).take (2 ^ 32)) ' ' = none := by
        rw [List.drop_zero]; exact h0
      rw [nestedLoop_of_round_break s hlong (2 ^ 32) 0 _ ' ' (by omega) (by omega) hb,
        nestedLoop_of_round_break s hlong (2 ^ 32) 0 _ ' ' (by omega) (by omega) hb]
    | some lb1 =>
      have hr : roundScan ((s.drop 0).take (2 ^ 32)) ' ' = some lb1 := by
        rw [List.drop_zero]; exact h0
      have e1 : s.length + 2 ^ 32 + 1 + extra = 2 ^ 32 + (s.length + 1 + extra) := by omega
      have e2 : s.length + 2 ^ 32 + 1 = 2 ^ 32 + (s.length + 1) := by omega
      rw [e1, e2, nestedLoop_of_round s hlong (2 ^ 32) 0 _ ' ' lb1 (by omega) (by norm_num) hr,
        nestedLoop_of_round s hlong (2 ^ 32) 0 _ ' ' lb1 (by omega) (by norm_num) hr]
      cases h1 : roundScan (s.take (2 ^ 32)) lb1 with
      | none =>
        have hb : roundScan ((s.drop 0).take (2 ^ 32)) lb1 = none := by
          rw [List.drop_zero]; exact h1
        rw [nestedLoop_of_round_break s hlong (2 ^ 32) 0 _ lb1 (by omega) (by omega) hb,
          nestedLoop_of_round_break s hlong (2 ^ 32) 0 _ lb1 (by omega) (by omega) hb]
      | some lb2 =>
        have hl1 := roundScan_eq_some _ _ _ h0
        have hl2 := roundScan_eq_some _ _ _ h1
        have hfix : roundScan (s.take (2 ^ 32)) lb1 = some lb1 := by
          rw [h1, hl2, hl1, lastBrace_idem]
        rw [nestedLoop_of_fixed_round s hlong lb1 hfix, nestedLoop_of_fixed_round s hlong lb1 hfix]

/-- The fuel of `HasMismatchedCurlyBrackets` decides the loop: more fuel gives
the same answer, so `none` stands for a run that never returns. -/
theorem mismatchedLoop_fuel_adequate (s : URITemplate) (extra : Nat) :
    mismatchedLoop s (s.length + 1 + extra) 0 0 0 = HasMismatchedCurlyBrackets s := by
  by_cases hshort : s.length < 2 ^ 32
  · unfold HasMismatchedCurlyBrackets
    rw [mismatchedLoop_eq s hshort _ 0 0 0 (Nat.zero_le _) (by norm_num) (by norm_num)
        (by omega),
      mismatchedLoop_eq s hshort _ 0 0 0 (Nat.zero_le _) (by norm_num) (by norm_num)
        (by omega)]
  · rw [hasMismatchedCurlyBrackets_of_long s (by omega),
      mismatchedLoop_of_long s (by omega) _ 0 0 0 (by norm_num)]

end UriTemplateParser
